import Mathlib

/-!
Verification development for the host-routed HTTPS reverse proxy gateway
(`gateway.js` + `app-manager.mjs`): a shallow embedding of the
certificate orchestrator, response rewriting, TLS-context cache,
readiness gate, and child-process supervisor, together with theorems
settling the specification's testable properties against the code.
-/

namespace Gateway

/- ===================================================================
   Supervisor model (`app-manager.mjs`, class AppManager).
   We model the per-host supervision state: each host's entry in
   `children` / `manualStops` / `restartCounts`, and the wiring of child
   `exit` events.  `wired` counts spawned children whose `exit` event has
   not yet been delivered (a killed child still delivers one `exit`).
   =================================================================== -/

/-- Per-app configuration fields consulted by the supervisor.
`autoRestart` is `Option Bool` because the JS guard is `autoRestart !== false`
(an absent field allows restart). -/
structure SupApp where
  hasStartCmd : Bool
  autoRestart : Option Bool
  disabled    : Bool
  deriving Repr, DecidableEq

/-- Supervisor state for one host: `running` = `children.has(key)`,
`wired` = number of spawned children whose `exit` has not yet fired,
`manual` = `manualStops.has(key)`, `restartCount` = `restartCounts.get(key)`
(`none` when the key is absent), `logs` = the ring buffer contents. -/
structure SupState where
  running      : Bool
  wired        : Nat
  manual       : Bool
  restartCount : Option Nat
  logs         : List String
  deriving Repr, DecidableEq

/-- Initial supervisor state for a freshly configured host. -/
def SupState.init : SupState :=
  { running := false, wired := 0, manual := false, restartCount := none, logs := [] }

/-- Observable supervisor events (a subset of the emitted event stream
relevant to the claims).  `restartScheduled n d` records the
`setTimeout(() => this.start(key), delay)` call made by the exit handler,
with `n` the attempt number and `d` the delay in ms. -/
inductive SupEv where
  | started
  | stopped
  | exited (code : Option Int)
  | restartScheduled (attempt : Nat) (delay : Nat)
  deriving Repr, DecidableEq

/-- External actions on the supervisor for one host: an explicit
`start(host)` / `stop(host)` call, or delivery of a child `exit` event. -/
inductive SupAct where
  | start
  | stop
  | exit (code : Option Int)
  deriving Repr, DecidableEq

/-- Result value of `stop(host)`: `{ running: false }` vs `{ stopped: true }`. -/
inductive StopRet where
  | notRunning
  | stopped
  deriving Repr, DecidableEq

/-- `AppManager.stop` (app-manager.mjs lines 244-256, `opts.restart` absent):
if no child is present it returns `{running:false}` without touching any
state; otherwise it marks the manual stop, kills the child and removes it
from `children` (the killed child's `exit` event is still pending, so
`wired` is unchanged). -/
def stopFn (s : SupState) : StopRet × SupState × List SupEv :=
  if ¬ s.running then (StopRet.notRunning, s, [])
  else (StopRet.stopped, { s with manual := true, running := false }, [SupEv.stopped])

/-- The restart-backoff delay computed by the exit handler:
`Math.min(2000 + restarts * 1000, 30000)`. -/
def restartDelay (restarts : Nat) : Nat :=
  min (2000 + restarts * 1000) 30000

/-- The exit handler's auto-restart guard (app-manager.mjs line 230):
`!wasManual && app.autoRestart !== false && !app.disabled && code !== 0`. -/
def shouldRestart (app : SupApp) (wasManual : Bool) (code : Option Int) : Prop :=
  wasManual = false ∧ app.autoRestart ≠ some false ∧ app.disabled = false ∧ code ≠ some 0

instance (app : SupApp) (wasManual : Bool) (code : Option Int) :
    Decidable (shouldRestart app wasManual code) := by
  unfold shouldRestart; infer_instance

/-- The `exit` listener installed by `AppManager._wireChild`
(app-manager.mjs lines 224-241): delete the child entry, emit `app-exit`,
consume the one-shot manual-stop flag, and schedule a delayed restart when
`shouldRestart` holds, bumping the restart counter first. -/
def exitStep (app : SupApp) (s : SupState) (code : Option Int) : SupState × List SupEv :=
  let wasManual := s.manual
  let base := { s with running := false, wired := s.wired - 1, manual := false }
  if shouldRestart app wasManual code then
    let rc := s.restartCount.getD 0 + 1
    ({ base with restartCount := some rc },
     [SupEv.exited code, SupEv.restartScheduled rc (restartDelay rc)])
  else (base, [SupEv.exited code])

/-- `AppManager.start` restricted to one host with no port conflicts
(app-manager.mjs lines 87-212; the spawn, auto-install and log plumbing
have no bearing on the supervision state modelled here).  `none` models a
thrown error (`start command missing` / `app disabled`); a second start
while running returns `{already:true}` without effect. -/
def startFn (app : SupApp) (s : SupState) : Option (SupState × List SupEv) :=
  if ¬ app.hasStartCmd then none
  else if app.disabled then none
  else if s.running then some (s, [])
  else some ({ s with
                running := true
                wired := s.wired + 1
                restartCount := some (s.restartCount.getD 0) }, [SupEv.started])

/-- One supervisor transition.  A child `exit` can only be delivered while
some spawned child is outstanding (`wired > 0`). -/
def supStep (app : SupApp) (s : SupState) : SupAct → Option (SupState × List SupEv)
  | SupAct.start => startFn app s
  | SupAct.stop => let (_, s', evs) := stopFn s; some (s', evs)
  | SupAct.exit code => if s.wired = 0 then none else some (exitStep app s code)

/-- Run a list of supervisor actions, accumulating the emitted events. -/
def supRun (app : SupApp) (s : SupState) : List SupAct → Option (SupState × List SupEv)
  | [] => some (s, [])
  | a :: rest =>
    match supStep app s a with
    | none => none
    | some (s', evs) =>
      match supRun app s' rest with
      | none => none
      | some (s'', evs') => some (s'', evs ++ evs')

/-- Does an event list contain a scheduled automatic restart? -/
def hasRestartEv : List SupEv → Bool
  | [] => false
  | SupEv.restartScheduled _ _ :: _ => true
  | _ :: rest => hasRestartEv rest

/-- A well-behaved app config for concrete scenarios. -/
def plainApp : SupApp := { hasStartCmd := true, autoRestart := none, disabled := false }

/-- Recognizer for child-exit actions. -/
def isExitAct : SupAct → Bool
  | SupAct.exit _ => true
  | _ => false

/-- One round of the S5 crash loop: a crash exit with code 1, then the
scheduled restart firing. -/
def crashCycleActs : List SupAct := [SupAct.exit (some 1), SupAct.start]

/-- The worst-case restart sequence of S5: an initial `start`, then `n`
rounds of a crash exit (code 1) followed by the scheduled restart firing. -/
def crashTrace (n : Nat) : List SupAct :=
  SupAct.start :: (List.replicate n crashCycleActs).flatten

/-- The delays carried by the `restartScheduled` events of an event list,
in order. -/
def delaysOf : List SupEv → List Nat
  | [] => []
  | SupEv.restartScheduled _ d :: rest => d :: delaysOf rest
  | SupEv.started :: rest => delaysOf rest
  | SupEv.stopped :: rest => delaysOf rest
  | SupEv.exited _ :: rest => delaysOf rest

/-- Supervisor state in the middle of a crash loop: one running wired
child and `k` restarts recorded. -/
def loopState (k : Nat) : SupState :=
  { running := true, wired := 1, manual := false, restartCount := some k, logs := [] }

lemma supRun_append (app : SupApp) (s : SupState) (l₁ l₂ : List SupAct) :
    supRun app s (l₁ ++ l₂) =
      (supRun app s l₁).bind fun p =>
        (supRun app p.1 l₂).map fun q => (q.1, p.2 ++ q.2) := by
  induction l₁ generalizing s with
  | nil =>
    simp only [List.nil_append, supRun, Option.some_bind]
    cases h : supRun app s l₂ with
    | none => simp [h]
    | some q => simp [h]
  | cons a rest ih =>
    simp only [List.cons_append, supRun, List.append_eq]
    cases hs : supStep app s a with
    | none => simp
    | some p =>
      obtain ⟨ps, pe⟩ := p
      dsimp only
      rw [ih ps]
      cases h1 : supRun app ps rest with
      | none => simp
      | some q =>
        obtain ⟨qs, qe⟩ := q
        simp only [Option.some_bind]
        cases h2 : supRun app qs l₂ with
        | none => simp [h2]
        | some r => simp [h2, List.append_assoc]

lemma delaysOf_append (l₁ l₂ : List SupEv) :
    delaysOf (l₁ ++ l₂) = delaysOf l₁ ++ delaysOf l₂ := by
  induction l₁ with
  | nil => rfl
  | cons e rest ih => cases e <;> simp [delaysOf, ih]

lemma supRun_crashCycle (k : Nat) :
    supRun plainApp (loopState k) crashCycleActs =
      some (loopState (k + 1),
        [SupEv.exited (some 1),
         SupEv.restartScheduled (k + 1) (restartDelay (k + 1)),
         SupEv.started]) := by
  have hsr : shouldRestart plainApp (loopState k).manual (some 1) := by
    refine ⟨rfl, ?_, rfl, ?_⟩ <;> simp [plainApp]
  have hw : ¬ ((loopState k).wired = 0) := by simp [loopState]
  simp only [crashCycleActs, supRun, supStep, if_neg hw, exitStep, if_pos hsr]
  simp [startFn, plainApp, loopState]

lemma crashCycles_delays (m k : Nat) :
    ((supRun plainApp (loopState k)
        ((List.replicate m crashCycleActs).flatten)).map
      fun p => (p.1, delaysOf p.2)) =
    some (loopState (k + m), (List.range m).map fun i => restartDelay (k + i + 1)) := by
  induction m generalizing k with
  | zero => simp [supRun, delaysOf]
  | succ m ih =>
    rw [List.replicate_succ, List.flatten_cons, supRun_append, supRun_crashCycle k]
    have ih' := ih (k + 1)
    cases hrun : supRun plainApp (loopState (k + 1))
        ((List.replicate m crashCycleActs).flatten) with
    | none => rw [hrun] at ih'; simp at ih'
    | some q =>
      rw [hrun] at ih'
      simp only [Option.map_some'] at ih'
      have hq1 : q.1 = loopState (k + 1 + m) := congrArg Prod.fst (Option.some.inj ih')
      have hq2 : delaysOf q.2 = (List.range m).map fun i => restartDelay (k + 1 + i + 1) :=
        congrArg Prod.snd (Option.some.inj ih')
      simp only [Option.some_bind, hrun, Option.map_some', Option.some.injEq, Prod.mk.injEq]
      constructor
      · rw [hq1]; congr 1; omega
      · rw [delaysOf_append, hq2, delaysOf]
        rw [List.range_succ_eq_map, List.map_cons, List.map_map]
        simp only [delaysOf, List.cons.injEq, List.singleton_append]
        refine ⟨by simp, ?_⟩
        apply List.map_congr_left
        intro i _
        simp only [Function.comp_apply]
        congr 1
        omega

/-- **C8** (confirmed).  For a host starting with no recorded restarts, the
`n`-th consecutive automatic restart delay equals
`min(2000 + n·1000, 30000)` ms; consecutive delays are non-decreasing up to
the 30000 ms cap; and five consecutive crash exits (code 1) yield delays
3000, 4000, 5000, 6000, 7000 ms. -/
theorem restart_backoff_delays :
    (∀ n : Nat,
      ((supRun plainApp SupState.init (crashTrace n)).map fun p => delaysOf p.2) =
        some ((List.range n).map fun k => min (2000 + (k + 1) * 1000) 30000))
    ∧ (∀ n : Nat, min (2000 + n * 1000) 30000 ≤ min (2000 + (n + 1) * 1000) 30000)
    ∧ ((supRun plainApp SupState.init (crashTrace 5)).map fun p => delaysOf p.2) =
        some [3000, 4000, 5000, 6000, 7000] := by
  have hmain : ∀ n : Nat,
      ((supRun plainApp SupState.init (crashTrace n)).map fun p => delaysOf p.2) =
        some ((List.range n).map fun k => min (2000 + (k + 1) * 1000) 30000) := by
    intro n
    have hstart : supRun plainApp SupState.init [SupAct.start] =
        some (loopState 0, [SupEv.started]) := by
      simp [supRun, supStep, startFn, SupState.init, plainApp, loopState]
    have : crashTrace n =
        [SupAct.start] ++ (List.replicate n crashCycleActs).flatten := rfl
    rw [this, supRun_append, hstart]
    have hcs := crashCycles_delays n 0
    cases hrun : supRun plainApp (loopState 0)
        ((List.replicate n crashCycleActs).flatten) with
    | none => rw [hrun] at hcs; simp at hcs
    | some q =>
      rw [hrun] at hcs
      simp only [Option.map_some', Option.some.injEq] at hcs
      have hq2 : delaysOf q.2 = (List.range n).map fun i => restartDelay (0 + i + 1) :=
        congrArg Prod.snd hcs
      simp only [Option.some_bind, hrun, Option.map_some', Option.some.injEq,
        delaysOf_append, delaysOf, List.append_eq, List.nil_append, hq2]
      apply List.map_congr_left
      intro i _
      simp only [restartDelay, Nat.zero_add]
  refine ⟨hmain, ?_, ?_⟩
  · intro n
    rcases Nat.le_total (2000 + (n + 1) * 1000) 30000 with h | h
    · rw [Nat.min_eq_left h, Nat.min_eq_left (by omega)]; omega
    · rw [Nat.min_eq_right h]
      exact le_trans (Nat.min_le_right _ _) (le_refl _)
  · rw [hmain 5]; decide

/-- **C7 counterexample**: the manual-stop flag is a one-shot consumed by
whichever child exit arrives first.  Trace: start; manual stop; start;
manual stop again, with the first killed child's `exit` still undelivered.
The two pending exits then arrive (killed children exit with `code = null`):
the first consumes the flag, and the second — still with no intervening
`start` — schedules an automatic restart, contradicting manual-stop
isolation. -/
theorem manualStop_restart_race_cex :
    supRun plainApp SupState.init
        [SupAct.start, SupAct.stop, SupAct.start, SupAct.stop] =
      some ({ running := false, wired := 2, manual := true, restartCount := some 0,
              logs := [] },
            [SupEv.started, SupEv.stopped, SupEv.started, SupEv.stopped])
    ∧ supRun plainApp
        { running := false, wired := 2, manual := true, restartCount := some 0, logs := [] }
        [SupAct.exit none, SupAct.exit none] =
      some ({ running := false, wired := 0, manual := false, restartCount := some 1,
              logs := [] },
            [SupEv.exited none, SupEv.exited none, SupEv.restartScheduled 1 3000]) := by
  decide

/-- **C7** (amended).  (a) A child exit schedules an automatic restart iff
the manual-stop flag is clear AND `autoRestart` is not `false` AND the app
is not disabled AND the exit code is not 0 (a `null` code of a killed child
also passes the `code !== 0` guard).  (b) Manual-stop isolation holds
whenever at most one spawned child is outstanding at the moment of the
manual stop: after `stop(host)` no subsequent child exit schedules a
restart until an explicit `start`. -/
theorem restart_guard_and_manualStop_isolation
    (app : SupApp) (s : SupState) (code : Option Int)
    (_hw : s.wired ≠ 0) :
    (hasRestartEv (exitStep app s code).2 = true ↔
      (s.manual = false ∧ app.autoRestart ≠ some false ∧
       app.disabled = false ∧ code ≠ some 0))
    ∧ (∀ acts : List SupAct, s.running = true → s.wired ≤ 1 →
        acts.all isExitAct = true →
        ∀ s' evs, supRun app (stopFn s).2.1 acts = some (s', evs) →
          hasRestartEv evs = false) := by
  constructor
  · by_cases h : shouldRestart app s.manual code
    · simp only [exitStep, if_pos h, hasRestartEv]
      exact ⟨fun _ => h, fun _ => trivial⟩
    · simp only [exitStep, if_neg h, hasRestartEv]
      constructor
      · intro hfalse; exact absurd hfalse (by simp [hasRestartEv])
      · intro hc; exact absurd hc h
  · intro acts hrun hle hall s' evs hprun
    have hstop : (stopFn s).2.1 = { s with manual := true, running := false } := by
      simp [stopFn, hrun]
    rw [hstop] at hprun
    clear hstop
    -- invariant: from a state with (manual ∧ wired ≤ 1) or wired = 0,
    -- a sequence of exits emits no restart
    have key : ∀ (acts : List SupAct) (t : SupState),
        acts.all isExitAct = true →
        (t.wired = 0 ∨ (t.manual = true ∧ t.wired ≤ 1)) →
        ∀ s' evs, supRun app t acts = some (s', evs) → hasRestartEv evs = false := by
      intro acts
      induction acts with
      | nil =>
        intro t _ _ s' evs hsr
        simp only [supRun, Option.some.injEq, Prod.mk.injEq] at hsr
        rw [← hsr.2]
        rfl
      | cons a rest ih =>
        intro t hall hinv s' evs hsr
        cases a with
        | start => simp [List.all_cons, isExitAct] at hall
        | stop => simp [List.all_cons, isExitAct] at hall
        | exit code =>
          rw [List.all_cons] at hall
          have hrest := (Bool.and_eq_true _ _).mp hall |>.2
          simp only [supRun, supStep] at hsr
          rcases hinv with hw0 | ⟨hman, hw1⟩
          · rw [if_pos hw0] at hsr; exact absurd hsr (by simp)
          · have hwne : ¬ t.wired = 0 := by
              intro h0
              rw [if_pos h0] at hsr; exact absurd hsr (by simp)
            rw [if_neg hwne] at hsr
            have hns : ¬ shouldRestart app t.manual code := by
              rw [hman]; intro hc; exact absurd hc.1 (by simp)
            simp only [exitStep, if_neg hns] at hsr
            cases hrest' : supRun app
                { t with running := false, wired := t.wired - 1, manual := false }
                rest with
            | none => rw [hrest'] at hsr; exact absurd hsr (by simp)
            | some q =>
              rw [hrest'] at hsr
              simp only [Option.some.injEq] at hsr
              have hw2 : t.wired - 1 = 0 := by omega
              have hq := ih { t with running := false, wired := t.wired - 1, manual := false }
                hrest (Or.inl hw2) q.1 q.2 (by rw [hrest'])
              have hevs : evs = SupEv.exited code :: q.2 := by
                have h2 := congrArg Prod.snd hsr
                simpa using h2.symm
              rw [hevs]
              simp only [hasRestartEv]
              exact hq
    exact key acts { s with manual := true, running := false } hall
      (Or.inr ⟨rfl, by simpa using hle⟩) s' evs hprun

/-- Witness for the amended C7 at a concrete crash exit: a running,
singly-wired host with the flag clear and exit code 1 schedules a restart. -/
theorem restart_guard_and_manualStop_isolation_witness :
    hasRestartEv (exitStep plainApp
      { running := true, wired := 1, manual := false, restartCount := some 0, logs := [] }
      (some 1)).2 = true :=
  ((restart_guard_and_manualStop_isolation plainApp
      { running := true, wired := 1, manual := false, restartCount := some 0, logs := [] }
      (some 1) (by decide)).1).mpr (by decide)

/-- **C10** (confirmed).  `stop(host)` on a host with no running child
returns `{running: false}`, emits nothing, leaves the supervisor state
(including the manual-stop flag, restart count and log buffer) unchanged;
consequently, when the flag is clear, a child started afterwards that
crashes is still eligible for automatic restart. -/
theorem stop_noop_when_not_running
    (app : SupApp) (s : SupState)
    (hrun : s.running = false) (hman : s.manual = false)
    (hstart : app.hasStartCmd = true) (hdis : app.disabled = false)
    (har : app.autoRestart ≠ some false) :
    stopFn s = (StopRet.notRunning, s, []) ∧
    ((supRun app s [SupAct.start, SupAct.exit (some 1)]).map
      fun p => hasRestartEv p.2) = some true := by
  constructor
  · simp [stopFn, hrun]
  · have hstartFn : startFn app s = some ({ s with
        running := true
        wired := s.wired + 1
        restartCount := some (s.restartCount.getD 0) }, [SupEv.started]) := by
      unfold startFn
      rw [if_neg (by simp [hstart]), if_neg (by simp [hdis]), if_neg (by simp [hrun])]
    have hsr : shouldRestart app s.manual (some 1) := ⟨hman, har, hdis, by decide⟩
    simp only [supRun, supStep, hstartFn]
    have hwne : ¬ (s.wired + 1 = 0) := by omega
    rw [if_neg hwne]
    simp only [exitStep, if_pos (show shouldRestart app s.manual (some 1) from hsr)]
    simp [hasRestartEv]

/-- Witness for C10 at the initial state of a plain app. -/
theorem stop_noop_when_not_running_witness :
    stopFn SupState.init = (StopRet.notRunning, SupState.init, []) :=
  (stop_noop_when_not_running plainApp SupState.init rfl rfl rfl rfl (by decide)).1

/- ===================================================================
   ASCII lowercasing.  JS `String.prototype.toLowerCase` restricted to
   the ASCII hostnames this gateway handles. -/

/-- ASCII lowercase of one character. -/
def lowerChar (c : Char) : Char :=
  if 'A' ≤ c ∧ c ≤ 'Z' then Char.ofNat (c.toNat + 32) else c

/-- ASCII lowercase of a string (the JS `toLowerCase()` on the ASCII
hostnames and header values this gateway handles). -/
def lowerStr (s : String) : String := ⟨s.data.map lowerChar⟩

/- ===================================================================
   Readiness gate (`gateway.js` lines 51-68 `waitHealthy`, and the
   HTTPS request handler lines 512-537).  The probe loop sleeps 500 ms
   per round inside a 15000 ms window, so the window admits a bounded
   number of attempts; we model the probe outcomes as a function of the
   attempt index (`none` = network error / thrown exception) and the
   window as that attempt budget.
   =================================================================== -/

/-- The gate's per-probe health test (gateway.js line 58):
`res.statusCode >= 200 && res.statusCode < 500`. -/
def probeOk (status : Nat) : Bool := 200 ≤ status && status < 500

/-- The `waitHealthy` polling loop: returns `true` as soon as the app has
no `healthUrl` or some probe satisfies `probeOk`; returns `false` when the
attempt budget (15 s window) is exhausted. -/
def waitHealthyAux (healthUrl : Option String) (probes : Nat → Option Nat) :
    Nat → Nat → Bool
  | _, 0 => false
  | i, fuel + 1 =>
    if healthUrl.isNone then true
    else
      match probes i with
      | some st => if probeOk st then true else waitHealthyAux healthUrl probes (i + 1) fuel
      | none => waitHealthyAux healthUrl probes (i + 1) fuel

/-- Attempts admitted by the 15 s window at one 500 ms sleep per round. -/
def healthAttempts : Nat := 30

/-- `waitHealthy(app)` with the default 15000 ms timeout. -/
def waitHealthy (healthUrl : Option String) (probes : Nat → Option Nat) : Bool :=
  waitHealthyAux healthUrl probes 0 healthAttempts

/-- The routed app's fields consulted by the HTTPS request handler. -/
structure ReqApp where
  host : String
  hasStartCmd : Bool
  running : Bool
  healthUrl : Option String
  hasStaticDir : Bool
  deriving Repr, DecidableEq

/-- Outcome of the HTTPS request handler's admission pipeline.
`unknownHost` and `healthTimeout` are written with status 502,
`notRunning` with 503; `staticServe`/`proxied` continue to the
static-file branch or the proxy. -/
inductive GatewayResponse where
  | unknownHost
  | notRunning (host : String)
  | healthTimeout (host : String) (url : String)
  | staticServe
  | proxied
  deriving Repr, DecidableEq

/-- The HTTPS request handler's admission pipeline (gateway.js lines
512-577): unknown host → 502; configured `start` but not running → 503;
`waitHealthy` false with a `healthUrl` set → 502 with a descriptive body;
otherwise serve static or proxy. -/
def handleRequest (appLookup : Option ReqApp) (probes : Nat → Option Nat) :
    GatewayResponse :=
  match appLookup with
  | none => GatewayResponse.unknownHost
  | some app =>
    if app.hasStartCmd ∧ ¬ app.running then GatewayResponse.notRunning app.host
    else
      let healthy := waitHealthy app.healthUrl probes
      if ¬ healthy ∧ app.healthUrl.isSome then
        GatewayResponse.healthTimeout app.host (app.healthUrl.getD "")
      else if app.hasStaticDir then GatewayResponse.staticServe
      else GatewayResponse.proxied

/-- A concrete proxied app with a health URL, used in scenarios. -/
def probedApp : ReqApp :=
  { host := "app.local.console", hasStartCmd := false, running := false,
    healthUrl := some "http://127.0.0.1:3001/health", hasStaticDir := false }

/-- **C1 counterexample**: an endpoint that always answers 404 never
returns a status in [200,400), yet the gate (`statusCode >= 200 &&
statusCode < 500`) declares it healthy on the first probe and the request
is forwarded instead of being answered 502. -/
theorem health_gate_404_cex :
    (∀ i, (fun _ : Nat => some 404) i = some 404) ∧
    ¬ (200 ≤ 404 ∧ 404 < 400) ∧
    waitHealthy probedApp.healthUrl (fun _ => some 404) = true ∧
    handleRequest (some probedApp) (fun _ => some 404) = GatewayResponse.proxied := by
  refine ⟨fun i => rfl, by decide, by decide, by decide⟩

lemma waitHealthyAux_false (u : String) (probes : Nat → Option Nat) :
    ∀ fuel i, (∀ j, j < fuel → ∀ st, probes (i + j) = some st → probeOk st = false) →
      waitHealthyAux (some u) probes i fuel = false := by
  intro fuel
  induction fuel with
  | zero => intro i _; rfl
  | succ fuel ih =>
    intro i hfail
    simp only [waitHealthyAux, Option.isNone_some, Bool.false_eq_true, if_false]
    cases hp : probes i with
    | none =>
      exact ih (i + 1) fun j hj st hst => hfail (j + 1) (by omega) st (by
        rw [show i + (j + 1) = i + 1 + j by omega]; exact hst)
    | some st =>
      have hok : probeOk st = false := hfail 0 (by omega) st (by simpa using hp)
      dsimp only
      rw [hok]
      simp only [Bool.false_eq_true, if_false]
      exact ih (i + 1) fun j hj st' hst' => hfail (j + 1) (by omega) st' (by
        rw [show i + (j + 1) = i + 1 + j by omega]; exact hst')

/-- **C1** (amended).  The gate treats a probe as healthy iff
`200 ≤ status < 500` (a 404 counts as healthy); when every probe in the
15 s window fails that test (or errors), a request to an app with
`healthUrl` set — whose process gate passed — is answered with the
descriptive 502 `healthTimeout` response. -/
theorem health_gate_502
    (app : ReqApp) (probes : Nat → Option Nat) (u : String)
    (hu : app.healthUrl = some u)
    (hrun : app.hasStartCmd = false ∨ app.running = true)
    (hfail : ∀ i, ∀ st, probes i = some st → probeOk st = false) :
    probeOk 404 = true ∧
    handleRequest (some app) probes = GatewayResponse.healthTimeout app.host u := by
  refine ⟨by decide, ?_⟩
  have hwh : waitHealthy (some u) probes = false :=
    waitHealthyAux_false u probes healthAttempts 0
      (fun j _ st hst => hfail j st (by rw [Nat.zero_add] at hst; exact hst))
  have hgate : ¬ (app.hasStartCmd ∧ ¬ app.running) := by
    rcases hrun with h | h <;> simp [h]
  simp only [handleRequest, if_neg hgate, hu, hwh]
  simp

/-- Witness for C1 at a concrete app whose endpoint always answers 500. -/
theorem health_gate_502_witness :
    probeOk 404 = true ∧
    handleRequest (some probedApp) (fun _ => some 500) =
      GatewayResponse.healthTimeout "app.local.console" "http://127.0.0.1:3001/health" :=
  health_gate_502 probedApp (fun _ => some 500) "http://127.0.0.1:3001/health" rfl
    (Or.inl rfl) (fun i st hst => by cases Option.some.inj hst; decide)

/- ===================================================================
   TLS secure-context cache (`gateway.js` lines 424-444 and 483-500).
   `secureContextCache` is a JS Map from lowercased servername to
   `{context, expires}`; the TLS context object itself is opaque, so an
   entry is modelled by its key and `expires` timestamp.  `getSecureContext`
   inserts unconditionally on a miss; only the hourly sweep evicts.
   =================================================================== -/

/-- `CERT_CACHE_TTL` (24 hours, ms). -/
def CERT_CACHE_TTL : Nat := 24 * 60 * 60 * 1000

/-- `MAX_CERT_CACHE_SIZE`. -/
def MAX_CERT_CACHE_SIZE : Nat := 100

/-- JS `Map.prototype.set`: update in place when the key exists (keeping
its position), else append. -/
def mapSet (cache : List (String × Nat)) (k : String) (v : Nat) : List (String × Nat) :=
  match cache with
  | [] => [(k, v)]
  | (k', v') :: rest => if k' = k then (k, v) :: rest else (k', v') :: mapSet rest k v

/-- JS `Map.prototype.get`. -/
def mapGet (cache : List (String × Nat)) (k : String) : Option Nat :=
  match cache with
  | [] => none
  | (k', v') :: rest => if k' = k then some v' else mapGet rest k

/-- The cache effect of `getSecureContext(servername)` (gateway.js lines
483-500): lowercase the servername; unknown hosts never touch the cache;
a cached, unexpired entry is returned as-is; otherwise `ensureCert` runs
and the fresh context is inserted with `expires = now + CERT_CACHE_TTL` —
with no size check. -/
def getSecureContextCache (hostMap : List String) (cache : List (String × Nat))
    (servername : String) (now : Nat) : List (String × Nat) :=
  let s := lowerStr servername
  if ¬ hostMap.contains s then cache
  else
    match mapGet cache s with
    | some exp => if now < exp then cache else mapSet cache s (now + CERT_CACHE_TTL)
    | none => mapSet cache s (now + CERT_CACHE_TTL)

/-- Comparison used by the sweep's overflow sort:
`(a, b) => a[1].expires - b[1].expires`. -/
def expLE (a b : String × Nat) : Prop := a.2 ≤ b.2

instance : DecidableRel expLE := fun a b => by unfold expLE; infer_instance

instance : IsTotal (String × Nat) expLE := ⟨fun a b => Nat.le_total a.2 b.2⟩

instance : IsTrans (String × Nat) expLE := ⟨fun _ _ _ => Nat.le_trans⟩

/-- The hourly sweep (gateway.js lines 430-444): delete entries with
`now >= expires`; then, if still above `MAX_CERT_CACHE_SIZE`, sort the
survivors by ascending `expires` (JS `Array.sort` is stable, as is
insertion sort) and delete the earliest-expiring hostnames until the
bound is met. -/
def sweepCache (cache : List (String × Nat)) (now : Nat) : List (String × Nat) :=
  let alive := cache.filter fun e => decide (now < e.2)
  if alive.length > MAX_CERT_CACHE_SIZE then
    let sorted := List.insertionSort expLE alive
    let toRemove := sorted.take (alive.length - MAX_CERT_CACHE_SIZE)
    alive.filter fun e => !(toRemove.any fun r => r.1 == e.1)
  else alive

/-- 101 distinct configured hostnames. -/
def names101 : List String :=
  ["h0", "h1", "h2", "h3", "h4", "h5", "h6", "h7", "h8", "h9",
   "h10", "h11", "h12", "h13", "h14", "h15", "h16", "h17", "h18", "h19",
   "h20", "h21", "h22", "h23", "h24", "h25", "h26", "h27", "h28", "h29",
   "h30", "h31", "h32", "h33", "h34", "h35", "h36", "h37", "h38", "h39",
   "h40", "h41", "h42", "h43", "h44", "h45", "h46", "h47", "h48", "h49",
   "h50", "h51", "h52", "h53", "h54", "h55", "h56", "h57", "h58", "h59",
   "h60", "h61", "h62", "h63", "h64", "h65", "h66", "h67", "h68", "h69",
   "h70", "h71", "h72", "h73", "h74", "h75", "h76", "h77", "h78", "h79",
   "h80", "h81", "h82", "h83", "h84", "h85", "h86", "h87", "h88", "h89",
   "h90", "h91", "h92", "h93", "h94", "h95", "h96", "h97", "h98", "h99",
   "h100"]

/-- The cache after 101 distinct SNI lookups at time 0, starting empty. -/
def cacheAfter101 : List (String × Nat) :=
  names101.foldl (fun c k => getSecureContextCache names101 c k 0) []

set_option maxRecDepth 10000 in
/-- **C9 counterexample**: 101 SNI lookups for distinct configured
hostnames between two hourly sweeps leave 101 entries in the cache —
`getSecureContext` inserts without any size check, so the 100-entry bound
does not hold immediately after an insertion. -/
theorem tls_cache_overflow_cex :
    cacheAfter101.length = 101 ∧ MAX_CERT_CACHE_SIZE < cacheAfter101.length := by
  decide

/-- **C9** (amended).  The 100-entry bound is enforced only by the hourly
sweep, not at insertion time: after `sweepCache` runs, at most
`MAX_CERT_CACHE_SIZE` entries remain, every survivor is unexpired and came
from the original cache, and (for a well-formed map, i.e. no duplicate
keys) every unexpired entry that was evicted at overflow expires no later
than every survivor — eviction by earliest `expires`. -/
theorem tls_cache_sweep_bound (cache : List (String × Nat)) (now : Nat)
    (hkeys : (cache.map Prod.fst).Nodup) :
    (sweepCache cache now).length ≤ MAX_CERT_CACHE_SIZE ∧
    (∀ e ∈ sweepCache cache now, now < e.2) ∧
    (∀ e ∈ sweepCache cache now, e ∈ cache) ∧
    (∀ r ∈ cache, now < r.2 → r ∉ sweepCache cache now →
      ∀ e ∈ sweepCache cache now, r.2 ≤ e.2) := by
  classical
  set alive := cache.filter (fun e => decide (now < e.2)) with halive
  have halive_sub : alive.Sublist cache := List.filter_sublist cache
  have halive_mem : ∀ e ∈ alive, now < e.2 ∧ e ∈ cache := by
    intro e he
    rw [halive, List.mem_filter] at he
    exact ⟨by simpa using he.2, he.1⟩
  by_cases hbig : alive.length > MAX_CERT_CACHE_SIZE
  · set sorted := List.insertionSort expLE alive with hsorted
    set k := alive.length - MAX_CERT_CACHE_SIZE with hk
    set toRemove := sorted.take k with htr
    have hres : sweepCache cache now =
        alive.filter (fun e => !(toRemove.any fun r => r.1 == e.1)) := by
      rw [sweepCache]
      simp only [← halive, ← hsorted, ← hk, ← htr, if_pos hbig]
    have hperm : List.Perm sorted alive := List.perm_insertionSort expLE alive
    have hP : ∀ e ∈ toRemove, (toRemove.any fun r => r.1 == e.1) = true := by
      intro e he
      rw [List.any_eq_true]
      exact ⟨e, he, by simp⟩
    have hcount1 : toRemove.length ≤
        sorted.countP (fun e => toRemove.any fun r => r.1 == e.1) := by
      calc toRemove.length
          = toRemove.countP (fun e => toRemove.any fun r => r.1 == e.1) :=
            (List.countP_eq_length.mpr hP).symm
        _ ≤ sorted.countP _ := (List.take_sublist k sorted).countP_le _
    have hcount2 : sorted.countP (fun e => toRemove.any fun r => r.1 == e.1) =
        alive.countP (fun e => toRemove.any fun r => r.1 == e.1) := hperm.countP_eq _
    have hlen_toRemove : toRemove.length = k := by
      rw [htr, List.length_take, hsorted, List.length_insertionSort]
      omega
    have hbound : (sweepCache cache now).length ≤ MAX_CERT_CACHE_SIZE := by
      rw [hres]
      have hsplit : alive.length =
          (alive.filter (fun e => toRemove.any fun r => r.1 == e.1)).length +
          (alive.filter (fun e => !(toRemove.any fun r => r.1 == e.1))).length :=
        List.length_eq_length_filter_add _
      have hge : (alive.filter (fun e => toRemove.any fun r => r.1 == e.1)).length ≥ k := by
        rw [← List.countP_eq_length_filter]
        omega
      omega
    have hsort : List.Sorted expLE sorted := List.sorted_insertionSort expLE alive
    have key_inj := List.inj_on_of_nodup_map
      (hkeys.sublist (halive_sub.map Prod.fst))
    refine ⟨hbound, ?_, ?_, ?_⟩
    · intro e he; rw [hres] at he
      exact (halive_mem e (List.mem_of_mem_filter he)).1
    · intro e he; rw [hres] at he
      exact (halive_mem e (List.mem_of_mem_filter he)).2
    · intro r hr hralive hrnot e he
      have hral : r ∈ alive := by
        rw [halive, List.mem_filter]; exact ⟨hr, by simpa using hralive⟩
      rw [hres] at hrnot he
      have hPr : (toRemove.any fun t => t.1 == r.1) = true := by
        by_contra hno
        exact hrnot (List.mem_filter.mpr ⟨hral, by simp [hno]⟩)
      obtain ⟨t, htmem, htkey⟩ := List.any_eq_true.mp hPr
      have htal : t ∈ alive := hperm.mem_iff.mp (List.mem_of_mem_take htmem)
      have htr' : t = r := key_inj htal hral (by simpa using htkey)
      have hrrem : r ∈ toRemove := htr' ▸ htmem
      have heal : e ∈ alive := List.mem_of_mem_filter he
      have hePnot : (toRemove.any fun t => t.1 == e.1) = false := by
        have := (List.mem_filter.mp he).2
        simpa using this
      have hedrop : e ∈ sorted.drop k := by
        have hes : e ∈ sorted := hperm.mem_iff.mpr heal
        rw [← List.take_append_drop k sorted, List.mem_append] at hes
        rcases hes with h | h
        · exact absurd (hP e h) (by simp [hePnot])
        · exact h
      have hpw : ∀ a ∈ toRemove, ∀ b ∈ sorted.drop k, expLE a b := by
        have hsplit : sorted = toRemove ++ sorted.drop k := by
          rw [htr, List.take_append_drop]
        rw [hsplit] at hsort
        exact fun a ha b hb => (List.pairwise_append.mp hsort).2.2 a ha b hb
      exact hpw r hrrem e hedrop
  · have hres : sweepCache cache now = alive := by
      rw [sweepCache]
      simp only [← halive, if_neg hbig]
    refine ⟨?_, ?_, ?_, ?_⟩
    · rw [hres]; omega
    · intro e he; rw [hres] at he; exact (halive_mem e he).1
    · intro e he; rw [hres] at he; exact (halive_mem e he).2
    · intro r hr hralive hrnot e he
      rw [hres] at hrnot
      exact absurd (by rw [halive, List.mem_filter]; exact ⟨hr, by simpa using hralive⟩) hrnot

/-- Witness for the amended C9 on a concrete two-entry cache swept at
time 7. -/
theorem tls_cache_sweep_bound_witness :
    (sweepCache [("a", 10), ("b", 5)] 7).length ≤ MAX_CERT_CACHE_SIZE ∧
    (∀ e ∈ sweepCache [("a", 10), ("b", 5)] 7, 7 < e.2) :=
  ⟨(tls_cache_sweep_bound [("a", 10), ("b", 5)] 7 (by decide)).1,
   (tls_cache_sweep_bound [("a", 10), ("b", 5)] 7 (by decide)).2.1⟩

/- ===================================================================
   Set-Cookie rewriting (`gateway.js` lines 409-413):
   `sc.map(cookie => cookie.replace(/;?\s*Domain=[^;]+/i, ''))`.
   JS `replace` with a non-global regex removes only the leftmost match;
   `matchDomainLen` reproduces the regex's match at one position (the
   optional `;`, a run of whitespace — modelled for the ASCII whitespace
   characters plus NBSP — then `Domain=` case-insensitively, then a
   nonempty run of non-`;` characters, greedy), and `removeFirstDomain`
   scans for the leftmost such match.
   =================================================================== -/

def isJsSpace (c : Char) : Bool :=
  c == ' ' || c == '\t' || c == '\n' || c == '\r' ||
  c == '\x0b' || c == '\x0c' || c == Char.ofNat 160

def isLowerPat : List Char → List Char → Bool
  | [], _ => true
  | _ :: _, [] => false
  | p :: ps, c :: cs => lowerChar c == p && isLowerPat ps cs

def domainPat : List Char := ['d', 'o', 'm', 'a', 'i', 'n', '=']

def matchDomainLen (cs : List Char) : Option Nat :=
  let semi : Nat := if cs.head? = some ';' then 1 else 0
  let rest1 := if cs.head? = some ';' then cs.tail else cs
  let sps := rest1.takeWhile isJsSpace
  let rest2 := rest1.dropWhile isJsSpace
  if isLowerPat domainPat rest2 then
    let v := (rest2.drop domainPat.length).takeWhile (fun c => !(c == ';'))
    if v.isEmpty then none
    else some (semi + sps.length + domainPat.length + v.length)
  else none

def removeFirstDomain : List Char → List Char
  | [] => []
  | c :: rest =>
    match matchDomainLen (c :: rest) with
    | some n => (c :: rest).drop n
    | none => c :: removeFirstDomain rest

def rewriteSetCookie (cookie : String) : String := ⟨removeFirstDomain cookie.data⟩

def rewriteSetCookies (cookies : List String) : List String := cookies.map rewriteSetCookie

def hasLowerSub (pat : List Char) : List Char → Bool
  | [] => isLowerPat pat []
  | c :: cs => isLowerPat pat (c :: cs) || hasLowerSub pat cs

def hasDomainAttr (s : String) : Bool := hasLowerSub domainPat s.data

def sepDomain : List Char := [';', ' ', 'D', 'o', 'm', 'a', 'i', 'n', '=']

lemma takeWhile_all_append (p : Char → Bool) (l₁ l₂ : List Char)
    (h1 : ∀ c ∈ l₁, p c = true)
    (h2 : l₂ = [] ∨ ∃ c t, l₂ = c :: t ∧ p c = false) :
    (l₁ ++ l₂).takeWhile p = l₁ := by
  induction l₁ with
  | nil =>
    rcases h2 with h | ⟨c, t, rfl, hc⟩
    · simp [h]
    · simp [List.takeWhile, hc]
  | cons a l ih =>
    have ha : p a = true := h1 a (by simp)
    simp only [List.cons_append, List.takeWhile, ha, List.append_eq]
    rw [ih (fun c hc => h1 c (by simp [hc]))]

lemma isLowerPat_append_left (pat a b : List Char) (h : pat.length ≤ a.length) :
    isLowerPat pat (a ++ b) = isLowerPat pat a := by
  induction pat generalizing a with
  | nil => simp [isLowerPat]
  | cons p ps ih =>
    cases a with
    | nil => simp at h
    | cons c cs =>
      simp only [List.cons_append, isLowerPat, List.append_eq]
      rw [ih cs (by simpa using h)]

lemma isLowerPat_append_short (pat a : List Char) (c : Char) (t : List Char)
    (hpre : isLowerPat pat (a ++ c :: t) = true) (hlen : a.length < pat.length) :
    lowerChar c ∈ pat := by
  induction a generalizing pat with
  | nil =>
    cases pat with
    | nil => simp at hlen
    | cons p ps =>
      simp only [List.nil_append, isLowerPat, Bool.and_eq_true, beq_iff_eq] at hpre
      simp [hpre.1]
  | cons x a' ih =>
    cases pat with
    | nil => simp at hlen
    | cons p ps =>
      simp only [List.cons_append, isLowerPat, Bool.and_eq_true] at hpre
      exact List.mem_cons_of_mem _ (ih ps hpre.2 (by simpa using hlen))

lemma hasLowerSub_drop (pat l : List Char) (j : Nat)
    (h : isLowerPat pat (l.drop j) = true) : hasLowerSub pat l = true := by
  induction l generalizing j with
  | nil => simpa using h
  | cons c cs ih =>
    cases j with
    | zero => simp only [List.drop_zero] at h; simp [hasLowerSub, h]
    | succ j =>
      simp only [List.drop_succ_cons] at h
      simp [hasLowerSub, ih j h]

lemma match_struct (cs : List Char) (n : Nat) (h : matchDomainLen cs = some n) :
    ∃ semi sps rest2, cs = semi ++ sps ++ rest2 ∧
      (semi = [] ∨ semi = [';']) ∧
      (∀ c ∈ sps, isJsSpace c = true) ∧
      isLowerPat domainPat rest2 = true := by
  unfold matchDomainLen at h
  by_cases hsemi : cs.head? = some ';'
  · simp only [hsemi, if_pos rfl] at h
    refine ⟨[';'], cs.tail.takeWhile isJsSpace, cs.tail.dropWhile isJsSpace, ?_, Or.inr rfl,
      fun c hc => List.mem_takeWhile_imp hc, ?_⟩
    · cases cs with
      | nil => simp at hsemi
      | cons x xs =>
        have : x = ';' := by simpa using hsemi
        simp [this, List.takeWhile_append_dropWhile]
    · by_cases hp : isLowerPat domainPat (cs.tail.dropWhile isJsSpace) = true
      · exact hp
      · rw [if_neg (by simpa using hp)] at h; simp at h
  · rw [if_neg hsemi, if_neg hsemi] at h
    refine ⟨[], cs.takeWhile isJsSpace, cs.dropWhile isJsSpace,
      by simp [List.takeWhile_append_dropWhile], Or.inl rfl,
      fun c hc => List.mem_takeWhile_imp hc, ?_⟩
    by_cases hp : isLowerPat domainPat (cs.dropWhile isJsSpace) = true
    · exact hp
    · rw [if_neg (by simpa using hp)] at h; simp at h

lemma isLowerPat_semi (t : List Char) :
    isLowerPat domainPat (';' :: t) = false := by
  simp [isLowerPat, domainPat, lowerChar]

lemma no_match_in_pre (pre S : List Char) (i : Nat) (hi : i < pre.length)
    (hpre : hasLowerSub domainPat pre = false)
    (hS : ∃ t, S = ';' :: t) :
    matchDomainLen (pre.drop i ++ S) = none := by
  obtain ⟨St, rfl⟩ := hS
  by_contra hsome
  obtain ⟨n, hn⟩ : ∃ n, matchDomainLen (pre.drop i ++ ';' :: St) = some n := by
    cases hm : matchDomainLen (pre.drop i ++ ';' :: St) with
    | none => exact absurd hm hsome
    | some n => exact ⟨n, rfl⟩
  obtain ⟨semi, sps, rest2, hdecomp, hsemi, hsps, hlp⟩ := match_struct _ n hn
  have hdne : pre.drop i ≠ [] := by
    intro hcon
    have := List.drop_eq_nil_iff.mp hcon
    omega
  -- split pre.drop i ++ (';' :: St) = semi ++ (sps ++ rest2)
  rw [List.append_assoc] at hdecomp
  rcases List.append_eq_append_iff.mp hdecomp with ⟨m, hm1, hm2⟩ | ⟨m, hm1, hm2⟩
  · -- semi = pre.drop i ++ m : semi has length ≤ 1 and pre.drop i ≠ []
    rcases hsemi with rfl | rfl
    · exact hdne (List.append_eq_nil.mp hm1.symm).1
    · -- pre.drop i ++ m = [';'] so pre.drop i = [';'], m = []
      have hlen : (pre.drop i).length + m.length = 1 := by
        have := congrArg List.length hm1
        simpa using this.symm
      have hmnil : m = [] := by
        cases m with
        | nil => rfl
        | cons x xs =>
          exfalso
          have : (pre.drop i).length = 0 := by simp at hlen; omega
          exact hdne (List.eq_nil_of_length_eq_zero this)
      subst hmnil
      rw [List.append_nil] at hm1
      -- then ';' :: St = sps ++ rest2
      rw [List.nil_append] at hm2
      cases hsp : sps with
      | nil =>
        rw [hsp, List.nil_append] at hm2
        rw [← hm2] at hlp
        exact absurd hlp (by simp [isLowerPat_semi])
      | cons c cs2 =>
        have hc : c = ';' := by
          rw [hsp] at hm2
          exact (List.cons.injEq _ _ _ _ ▸ hm2.symm) |>.1
        have := hsps c (by simp [hsp])
        rw [hc] at this
        exact absurd this (by decide)
  · -- pre.drop i = semi ++ m and sps ++ rest2 = m ++ ';' :: St
    rcases List.append_eq_append_iff.mp hm2.symm with ⟨m2, hq1, hq2⟩ | ⟨m2, hq1, hq2⟩
    · -- sps = m ++ m2 and ';' :: St = m2 ++ rest2
      cases hm2c : m2 with
      | nil =>
        rw [hm2c, List.nil_append] at hq2
        rw [← hq2] at hlp
        exact absurd hlp (by simp [isLowerPat_semi])
      | cons c cs2 =>
        have hc : c = ';' := by
          rw [hm2c] at hq2
          exact ((List.cons.injEq _ _ _ _).mp hq2).1.symm
        have hcin : c ∈ sps := by
          rw [hq1, hm2c]
          simp
        have := hsps c hcin
        rw [hc] at this
        exact absurd this (by decide)
    · -- m = sps ++ m2 and rest2 = m2 ++ ';' :: St
      have hdpre : pre.drop i = semi ++ sps ++ m2 := by
        rw [hm1, hq1, List.append_assoc]
      by_cases hlen : domainPat.length ≤ m2.length
      · -- the domain pattern fits inside m2, a suffix of pre
        have hm2p : isLowerPat domainPat m2 = true := by
          rw [hq2, isLowerPat_append_left _ _ _ hlen] at hlp
          exact hlp
        have hm2suffix : m2 = pre.drop (i + (semi ++ sps).length) := by
          have : pre.drop i = (semi ++ sps) ++ m2 := by
            rw [hdpre, List.append_assoc]
          rw [← List.drop_left (semi ++ sps) m2, ← this, List.drop_drop]
        have := hasLowerSub_drop domainPat pre (i + (semi ++ sps).length)
          (by rw [← hm2suffix]; exact hm2p)
        rw [hpre] at this
        simp at this
      · -- short m2: the ';' of S would have to be a pattern character
        push_neg at hlen
        have := isLowerPat_append_short domainPat m2 ';' St (by rw [← hq2]; exact hlp) hlen
        revert this
        decide

lemma removeFirst_append (l₁ l₂ : List Char)
    (h : ∀ i, i < l₁.length → matchDomainLen (l₁.drop i ++ l₂) = none) :
    removeFirstDomain (l₁ ++ l₂) = l₁ ++ removeFirstDomain l₂ := by
  induction l₁ with
  | nil => simp
  | cons c rest ih =>
    have h0 := h 0 (by simp)
    rw [List.drop_zero, List.cons_append] at h0
    rw [List.cons_append, removeFirstDomain, h0]
    rw [ih fun i hi => by
      have := h (i + 1) (by simpa using hi)
      rwa [List.drop_succ_cons] at this]
    rfl

lemma matchDomainLen_at_sep (val suf : List Char)
    (hvne : val ≠ []) (hval : ∀ c ∈ val, (c == ';') = false)
    (hsuf : suf = [] ∨ ∃ t, suf = ';' :: t) :
    matchDomainLen (sepDomain ++ (val ++ suf)) = some (sepDomain.length + val.length) := by
  have hsp : isJsSpace ' ' = true := by decide
  have hnd : isJsSpace 'D' = false := by decide
  have hlpD : isLowerPat domainPat
      ('D' :: 'o' :: 'm' :: 'a' :: 'i' :: 'n' :: '=' :: (val ++ suf)) = true := by
    simp [isLowerPat, domainPat, lowerChar]
  have htw : (val ++ suf).takeWhile (fun c => !(c == ';')) = val := by
    apply takeWhile_all_append
    · intro c hc; simp [hval c hc]
    · rcases hsuf with rfl | ⟨t, rfl⟩
      · exact Or.inl rfl
      · exact Or.inr ⟨';', t, rfl, by decide⟩
  show matchDomainLen (';' :: ' ' :: 'D' :: 'o' :: 'm' :: 'a' :: 'i' :: 'n' :: '='
      :: (val ++ suf)) = some (sepDomain.length + val.length)
  unfold matchDomainLen
  dsimp only [List.head?_cons, List.tail_cons]
  rw [if_pos rfl, if_pos rfl]
  rw [List.takeWhile_cons, List.dropWhile_cons]
  rw [if_pos (show isJsSpace ' ' = true from hsp), if_pos (show isJsSpace ' ' = true from hsp)]
  rw [List.takeWhile_cons, List.dropWhile_cons]
  rw [if_neg (by simp [hnd] : ¬ isJsSpace 'D' = true), if_neg (by simp [hnd] : ¬ isJsSpace 'D' = true)]
  rw [if_pos hlpD]
  rw [show List.drop domainPat.length
      ('D' :: 'o' :: 'm' :: 'a' :: 'i' :: 'n' :: '=' :: (val ++ suf)) = val ++ suf from rfl]
  rw [htw]
  rw [if_neg (by simpa using hvne)]
  simp only [List.length_cons, List.length_nil, sepDomain, domainPat, Option.some.injEq]

/-- **C6 counterexample**: `cookie.replace(/;?\s*Domain=[^;]+/i, '')` has no
`g` flag, so only the first `Domain` attribute is removed; a Set-Cookie
entry with two `Domain` attributes leaves the gateway still carrying one. -/
theorem setCookie_double_domain_cex :
    rewriteSetCookies ["sid=abc; Domain=a.com; Domain=b.com"] = ["sid=abc; Domain=b.com"] ∧
    hasDomainAttr "sid=abc; Domain=b.com" = true := by
  decide

/-- **C6** (amended).  The Set-Cookie rewrite removes only the *first*
`Domain` attribute of each cookie string (`String.replace` with a
non-global regex).  For a cookie with exactly one Domain attribute —
`pre ++ "; Domain=" ++ value ++ suf` with no `domain=` text in `pre`, a
nonempty `value` free of `;`, and `suf` empty or another `;`-attribute —
the forwarded value is `pre ++ suf`, and it carries no Domain attribute
whenever the splice itself contains no `domain=` text. -/
theorem setCookie_domain_rewrite
    (pre val suf : List Char)
    (hpre : hasLowerSub domainPat pre = false)
    (hvne : val ≠ []) (hval : ∀ c ∈ val, (c == ';') = false)
    (hsuf : suf = [] ∨ ∃ t, suf = ';' :: t) :
    rewriteSetCookie ⟨pre ++ sepDomain ++ val ++ suf⟩ = ⟨pre ++ suf⟩ ∧
    (hasLowerSub domainPat (pre ++ suf) = false →
      hasDomainAttr (rewriteSetCookie ⟨pre ++ sepDomain ++ val ++ suf⟩) = false) := by
  have hassoc : pre ++ sepDomain ++ val ++ suf = pre ++ (sepDomain ++ (val ++ suf)) := by
    simp [List.append_assoc]
  have hmain : removeFirstDomain (pre ++ sepDomain ++ val ++ suf) = pre ++ suf := by
    rw [hassoc]
    rw [removeFirst_append pre (sepDomain ++ (val ++ suf)) (fun i hi =>
      no_match_in_pre pre (sepDomain ++ (val ++ suf)) i hi hpre
        ⟨' ' :: 'D' :: 'o' :: 'm' :: 'a' :: 'i' :: 'n' :: '=' :: (val ++ suf), rfl⟩)]
    have hm := matchDomainLen_at_sep val suf hvne hval hsuf
    have : removeFirstDomain (sepDomain ++ (val ++ suf)) = suf := by
      show removeFirstDomain (';' :: ' ' :: 'D' :: 'o' :: 'm' :: 'a' :: 'i' :: 'n' :: '='
          :: (val ++ suf)) = suf
      rw [removeFirstDomain]
      rw [show (';' :: ' ' :: 'D' :: 'o' :: 'm' :: 'a' :: 'i' :: 'n' :: '='
          :: (val ++ suf)) = sepDomain ++ (val ++ suf) from rfl, hm]
      have : sepDomain ++ (val ++ suf) = (sepDomain ++ val) ++ suf := by
        simp [List.append_assoc]
      rw [this, show sepDomain.length + val.length = (sepDomain ++ val).length by simp]
      exact List.drop_left _ _
    rw [this]
  constructor
  · show String.mk (removeFirstDomain (pre ++ sepDomain ++ val ++ suf)) = String.mk (pre ++ suf)
    rw [hmain]
  · intro hclean
    show hasLowerSub domainPat (String.mk (removeFirstDomain
      (pre ++ sepDomain ++ val ++ suf))).data = false
    rw [show (String.mk (removeFirstDomain (pre ++ sepDomain ++ val ++ suf))).data =
      removeFirstDomain (pre ++ sepDomain ++ val ++ suf) from rfl, hmain]
    exact hclean

/-- Witness for the amended C6 on the S4 scenario cookie. -/
theorem setCookie_domain_rewrite_witness :
    rewriteSetCookie "sid=abc; Domain=backend.internal; Path=/" = "sid=abc; Path=/" := by
  have h := (setCookie_domain_rewrite "sid=abc".data "backend.internal".data "; Path=/".data
    (by decide) (by decide) (by decide) (Or.inr ⟨" Path=/".data, by decide⟩)).1
  have heq : ("sid=abc; Domain=backend.internal; Path=/" : String) =
      ⟨"sid=abc".data ++ sepDomain ++ "backend.internal".data ++ "; Path=/".data⟩ := by decide
  have heq2 : ("sid=abc; Path=/" : String) = ⟨"sid=abc".data ++ "; Path=/".data⟩ := by decide
  rw [heq, heq2, h]

/- ===================================================================
   Certificate orchestrator (`gateway.js` `ensureCert`, lines 81-259,
   with `selfSigned`, lines 292-341, and `isLocalDomainName`,
   lines 263-267).  The file-system state is passed explicitly: the
   per-host record for public hosts, the parsed `local-gateway` combined
   record for local-like hosts.
   =================================================================== -/

/-- Plain (case-sensitive) substring test: JS `String.prototype.includes`. -/
def hasSub (pat : List Char) : List Char → Bool
  | [] => List.isPrefixOf pat []
  | c :: cs => List.isPrefixOf pat (c :: cs) || hasSub pat cs

def strContains (s pat : String) : Bool := hasSub pat.data s.data

/-- `isLocalDomainName` (gateway.js lines 263-267). -/
def isLocalDomainName (d : String) : Bool :=
  let s := lowerStr d
  strContains s ".local" || strContains s "local." ||
  strContains s "localhost" || strContains s ".console"

/-- The same four-substring test applied to an already-lowercased name
(gateway.js lines 100, 173, 177). -/
def localIncludes (s : String) : Bool :=
  strContains s ".local" || strContains s "local." ||
  strContains s "localhost" || strContains s ".console"

/- CN extraction: `String(subject).match(/CN=([^,\n\r\\/]+)/i)` -/
def cnBadChar (c : Char) : Bool :=
  c == ',' || c == '\n' || c == '\r' || c == '\\' || c == '/'

def extractCNAux : List Char → Option (List Char)
  | [] => none
  | c :: cs =>
    if isLowerPat ['c', 'n', '='] (c :: cs) then
      let v := ((c :: cs).drop 3).takeWhile (fun ch => !(cnBadChar ch))
      if v.isEmpty then extractCNAux cs else some v
    else extractCNAux cs

def extractCN (s : String) : Option String := (extractCNAux s.data).map fun l => ⟨l⟩

/- SAN extraction: global scan `/DNS:([^,\s]+)/g`, lowercasing each name. -/
def dnsBadChar (c : Char) : Bool := c == ',' || isJsSpace c

def dnsNamesAux : Nat → List Char → List String
  | 0, _ => []
  | _, [] => []
  | fuel + 1, c :: cs =>
    if List.isPrefixOf ['D', 'N', 'S', ':'] (c :: cs) then
      let v := (cs.drop 3).takeWhile (fun ch => !(dnsBadChar ch))
      if v.isEmpty then dnsNamesAux fuel cs
      else String.mk (v.map lowerChar) :: dnsNamesAux fuel (cs.drop (3 + v.length))
    else dnsNamesAux fuel cs

def dnsNames (s : String) : List String := dnsNamesAux s.data.length s.data

/-- `sanMatchesHost` (gateway.js lines 136-148): an exact (lowercased)
match, or a wildcard SAN `*.base` covering a proper subdomain of `base`
(the wildcard does not match the base itself). -/
def sanMatchesHost (list : List String) (host : String) : Bool :=
  list.any fun s =>
    if s.data.isEmpty then false
    else
      let ss := lowerStr s
      if ss == host then true
      else if List.isPrefixOf ['*', '.'] ss.data then
        let base : String := ⟨ss.data.drop 2⟩
        if host == base then false
        else List.isSuffixOf ('.' :: base.data) host.data || host == base
      else false

/-- One configured app as consulted by the combined-cert SAN collection. -/
structure AppEntry where
  host : String
  altNames : List String
  deriving Repr, DecidableEq

/-- JS `Set.prototype.add` on an insertion-ordered list. -/
def insertIfAbsent (l : List String) (x : String) : List String :=
  if l.contains x then l else l ++ [x]

def addIfLocal (acc : List String) (s : String) : List String :=
  if localIncludes s then insertIfAbsent acc s else acc

def appStep (acc : List String) (a : AppEntry) : List String :=
  a.altNames.foldl (fun ac alt => addIfLocal ac (lowerStr alt))
    (addIfLocal acc (lowerStr a.host))

/-- gateway.js lines 165-183: the requested hostname plus every
configured local-like host and altName, lowercased, first-seen order. -/
def collectLocalNames (hostname : String) (apps : List AppEntry) : List String :=
  apps.foldl appStep [lowerStr hostname]

/-- JS `n.split('.')`. -/
def splitOnDot : List Char → List (List Char)
  | [] => [[]]
  | c :: cs =>
    if c == '.' then [] :: splitOnDot cs
    else
      match splitOnDot cs with
      | [] => [[c]]
      | p :: rest => (c :: p) :: rest

/-- JS `parts.slice(-2).join('.')`. -/
def joinDots : List (List Char) → List Char
  | [] => []
  | [p] => p
  | p :: rest => p ++ '.' :: joinDots rest

/-- gateway.js lines 187-192: the wildcard SAN derived from one name —
present only when the name has ≥ 2 labels, does not contain `localhost`,
and its two-label base is nonempty and not `localhost`. -/
def wildcardFor (n : String) : Option String :=
  let parts := splitOnDot n.data
  if 2 ≤ parts.length ∧ strContains n "localhost" = false then
    let base : String := ⟨joinDots (parts.drop (parts.length - 2))⟩
    if base ≠ "" ∧ base ≠ "localhost" then some ("*." ++ base) else none
  else none

def wildcardStep (acc : List String) (n : String) : List String :=
  match wildcardFor n with
  | some w => insertIfAbsent acc w
  | none => acc

def wildcardSet (names : List String) : List String := names.foldl wildcardStep []

/-- gateway.js lines 182-195: the SAN list written into a regenerated
combined certificate. -/
def regenNames (hostname : String) (apps : List AppEntry) : List String :=
  let names := collectLocalNames hostname apps
  let names := if names.isEmpty then [lowerStr hostname] else names
  names ++ (wildcardSet names).filter (fun w => !(names.contains w))

/-- The parsed fields of the on-disk combined certificate:
`x.subject` and `x.subjectAltName` of the `X509Certificate`.
`none` models a missing or unparsable record. -/
structure CombinedDisk where
  subjectRaw : String
  sanRaw : String
  deriving Repr, DecidableEq

/-- Outcome of `ensureCert` on the local-like branch, described by the
SAN set of the on-disk combined record after the call. -/
inductive LocalCertResult where
  | reused (sans : List String)
  | regenerated (sans : List String)
  deriving Repr, DecidableEq

/-- gateway.js lines 99-219 (the local-domain branch of `ensureCert`):
reuse the on-disk `local-gateway` record only when its SANs match the
requested hostname (exactly or by wildcard) and its Subject CN is
`local-gateway`; otherwise regenerate with `regenNames`. -/
def ensureCertLocal (hostname : String) (disk : Option CombinedDisk)
    (apps : List AppEntry) : LocalCertResult :=
  let hostLower := lowerStr hostname
  match disk with
  | some d =>
    let sans := dnsNames d.sanRaw
    match extractCN d.subjectRaw with
    | some cn =>
      if sanMatchesHost sans hostLower = true ∧ lowerStr cn = "local-gateway" then
        LocalCertResult.reused sans
      else LocalCertResult.regenerated (regenNames hostname apps)
    | none => LocalCertResult.regenerated (regenNames hostname apps)
  | none => LocalCertResult.regenerated (regenNames hostname apps)

/-- The SAN set of the on-disk combined record after `ensureCert`. -/
def LocalCertResult.sans : LocalCertResult → List String
  | LocalCertResult.reused s => s
  | LocalCertResult.regenerated s => s

lemma mem_insertIfAbsent (l : List String) (x y : String) (h : x ∈ l) :
    x ∈ insertIfAbsent l y := by
  unfold insertIfAbsent
  split <;> simp [h]

lemma self_mem_insertIfAbsent (l : List String) (y : String) : y ∈ insertIfAbsent l y := by
  unfold insertIfAbsent
  by_cases hc : l.contains y
  · rw [if_pos hc]
    exact List.mem_of_elem_eq_true hc
  · rw [if_neg hc]
    simp

lemma mem_addIfLocal (acc : List String) (s x : String) (h : x ∈ acc) :
    x ∈ addIfLocal acc s := by
  unfold addIfLocal
  split
  · exact mem_insertIfAbsent _ _ _ h
  · exact h

lemma mem_altFold (alts : List String) (acc : List String) (x : String) (h : x ∈ acc) :
    x ∈ alts.foldl (fun ac alt => addIfLocal ac (lowerStr alt)) acc := by
  induction alts generalizing acc with
  | nil => exact h
  | cons a rest ih => exact ih _ (mem_addIfLocal _ _ _ h)

lemma mem_appStep (acc : List String) (a : AppEntry) (x : String) (h : x ∈ acc) :
    x ∈ appStep acc a :=
  mem_altFold _ _ _ (mem_addIfLocal _ _ _ h)

lemma mem_appsFold (apps : List AppEntry) (acc : List String) (x : String) (h : x ∈ acc) :
    x ∈ apps.foldl appStep acc := by
  induction apps generalizing acc with
  | nil => exact h
  | cons a rest ih => exact ih _ (mem_appStep _ _ _ h)

lemma self_mem_collectLocalNames (h : String) (apps : List AppEntry) :
    lowerStr h ∈ collectLocalNames h apps :=
  mem_appsFold apps _ _ (by simp)

lemma mem_wildcardStep (acc : List String) (n x : String) (h : x ∈ acc) :
    x ∈ wildcardStep acc n := by
  unfold wildcardStep
  cases wildcardFor n with
  | none => exact h
  | some w => exact mem_insertIfAbsent _ _ _ h

lemma mem_wildcardFoldPreserve (names : List String) (acc : List String) (x : String)
    (h : x ∈ acc) : x ∈ names.foldl wildcardStep acc := by
  induction names generalizing acc with
  | nil => exact h
  | cons n rest ih => exact ih _ (mem_wildcardStep _ _ _ h)

lemma wildcard_mem_wildcardSetAux (names : List String) (acc : List String)
    (n w : String) (hn : n ∈ names) (hw : wildcardFor n = some w) :
    w ∈ names.foldl wildcardStep acc := by
  induction names generalizing acc with
  | nil => cases hn
  | cons m rest ih =>
    rw [List.foldl_cons]
    rcases List.mem_cons.mp hn with rfl | hmem
    · apply mem_wildcardFoldPreserve
      unfold wildcardStep
      rw [hw]
      exact self_mem_insertIfAbsent _ _
    · exact ih _ hmem

lemma wildcard_mem_wildcardSet (names : List String) (n w : String)
    (hn : n ∈ names) (hw : wildcardFor n = some w) : w ∈ wildcardSet names :=
  wildcard_mem_wildcardSetAux names [] n w hn hw

lemma mem_regenNames_of_collect (h : String) (apps : List AppEntry) (x : String)
    (hx : x ∈ collectLocalNames h apps) : x ∈ regenNames h apps := by
  have hne : (collectLocalNames h apps).isEmpty = false := by
    cases hcl : collectLocalNames h apps with
    | nil => rw [hcl] at hx; cases hx
    | cons a l => rfl
  simp only [regenNames, hne, Bool.false_eq_true, if_false, List.mem_append]
  exact Or.inl hx

lemma wildcard_mem_regenNames (h : String) (apps : List AppEntry) (n w : String)
    (hn : n ∈ collectLocalNames h apps) (hw : wildcardFor n = some w) :
    w ∈ regenNames h apps := by
  have hne : (collectLocalNames h apps).isEmpty = false := by
    cases hcl : collectLocalNames h apps with
    | nil => rw [hcl] at hn; cases hn
    | cons a l => rfl
  simp only [regenNames, hne, Bool.false_eq_true, if_false, List.mem_append]
  by_cases hc : (collectLocalNames h apps).contains w
  · exact Or.inl (List.mem_of_elem_eq_true hc)
  · refine Or.inr (List.mem_filter.mpr ⟨wildcard_mem_wildcardSet _ n w hn hw, ?_⟩)
    simp only [Bool.not_eq_eq_eq_not, Bool.not_true]
    exact Bool.not_eq_true _ ▸ (by simpa using hc)

lemma wildcardFor_isSome (h : String)
    (hlen : 2 ≤ (splitOnDot h.data).length)
    (hcon : strContains h "localhost" = false) :
    ∃ w, wildcardFor h = some w := by
  unfold wildcardFor
  rw [if_pos ⟨hlen, hcon⟩]
  have hdlen : ((splitOnDot h.data).drop ((splitOnDot h.data).length - 2)).length = 2 := by
    rw [List.length_drop]
    omega
  obtain ⟨a, b, hab⟩ : ∃ a b,
      (splitOnDot h.data).drop ((splitOnDot h.data).length - 2) = [a, b] := by
    cases hd : (splitOnDot h.data).drop ((splitOnDot h.data).length - 2) with
    | nil => rw [hd] at hdlen; simp at hdlen
    | cons a l =>
      cases l with
      | nil => rw [hd] at hdlen; simp at hdlen
      | cons b l2 =>
        cases l2 with
        | nil => exact ⟨a, b, rfl⟩
        | cons x l3 => rw [hd] at hdlen; simp at hdlen
  rw [hab]
  have hjoin : joinDots [a, b] = a ++ '.' :: b := by simp [joinDots]
  have hne : (⟨joinDots [a, b]⟩ : String) ≠ "" := by
    rw [hjoin]
    intro hcon2
    have hx : a ++ '.' :: b = ([] : List Char) := congrArg String.data hcon2
    simp at hx
  have hnl : (⟨joinDots [a, b]⟩ : String) ≠ "localhost" := by
    rw [hjoin]
    intro hcon2
    have hdata : a ++ '.' :: b = "localhost".data := congrArg String.data hcon2
    have hdot : '.' ∈ a ++ '.' :: b := by simp
    rw [hdata] at hdot
    revert hdot
    decide
  rw [if_pos ⟨hne, hnl⟩]
  exact ⟨_, rfl⟩

/-- **C2** (amended).  After `ensureCert(h)` for a lowercased local-like
hostname: when the on-disk combined record is reused, its SAN set is
unchanged and covers `h` exactly or via a wildcard (so it need not
literally contain `h`); when the record is regenerated, the new SAN set
literally contains `h`, and also the wildcard `*.<last two labels of h>`
whenever the code's guard holds — `h` has ≥ 2 labels and does not contain
the substring `localhost` (stronger than the claim's `h ≠ localhost`:
e.g. `app.localhost` gets no wildcard). -/
theorem combined_san_coverage (h : String) (disk : Option CombinedDisk)
    (apps : List AppEntry) (hlow : lowerStr h = h) :
    (∀ sans, ensureCertLocal h disk apps = LocalCertResult.reused sans →
        sanMatchesHost sans h = true) ∧
    (∀ sans, ensureCertLocal h disk apps = LocalCertResult.regenerated sans →
        h ∈ sans ∧ ∀ w, wildcardFor h = some w → w ∈ sans) ∧
    (2 ≤ (splitOnDot h.data).length → strContains h "localhost" = false →
        ∃ w, wildcardFor h = some w) := by
  refine ⟨?_, ?_, wildcardFor_isSome h⟩
  · intro sans heq
    cases disk with
    | none => cases heq
    | some d =>
      cases hcn : extractCN d.subjectRaw with
      | none =>
        simp only [ensureCertLocal, hcn] at heq
        simp at heq
      | some cn =>
        simp only [ensureCertLocal, hcn] at heq
        by_cases hcond : sanMatchesHost (dnsNames d.sanRaw) (lowerStr h) = true ∧
            lowerStr cn = "local-gateway"
        · rw [if_pos hcond] at heq
          have hs : sans = dnsNames d.sanRaw := (LocalCertResult.reused.injEq _ _).mp heq.symm
          rw [hs, ← hlow]
          exact hcond.1
        · rw [if_neg hcond] at heq
          simp at heq
  · intro sans heq
    have hsans : sans = regenNames h apps := by
      cases disk with
      | none => cases heq; rfl
      | some d =>
        cases hcn : extractCN d.subjectRaw with
        | none =>
          simp only [ensureCertLocal, hcn] at heq
          exact ((LocalCertResult.regenerated.injEq _ _).mp heq).symm
        | some cn =>
          simp only [ensureCertLocal, hcn] at heq
          by_cases hcond : sanMatchesHost (dnsNames d.sanRaw) (lowerStr h) = true ∧
              lowerStr cn = "local-gateway"
          · rw [if_pos hcond] at heq; simp at heq
          · rw [if_neg hcond] at heq
            exact ((LocalCertResult.regenerated.injEq _ _).mp heq).symm
    subst hsans
    constructor
    · have := self_mem_collectLocalNames h apps
      rw [hlow] at this
      exact mem_regenNames_of_collect h apps h this
    · intro w hw
      have hhm := self_mem_collectLocalNames h apps
      rw [hlow] at hhm
      exact wildcard_mem_regenNames h apps h w hhm hw

/-- Witness for the amended C2: a fresh regeneration for
`api.local.console` (no combined record on disk) contains the host and
its wildcard. -/
theorem combined_san_coverage_witness :
    "api.local.console" ∈ regenNames "api.local.console"
      [⟨"local.console", []⟩] ∧
    "*.local.console" ∈ regenNames "api.local.console" [⟨"local.console", []⟩] :=
  have hc := (combined_san_coverage "api.local.console" none [⟨"local.console", []⟩]
    (by decide)).2.1 (regenNames "api.local.console" [⟨"local.console", []⟩]) rfl
  ⟨hc.1, hc.2 "*.local.console" (by decide)⟩

/-- **C2 counterexample**: a combined record whose SANs cover the
requested host only through the wildcard `*.local.console` (with the
correct `local-gateway` CN) is reused as-is, so after `ensureCert` the
on-disk SAN set does not literally contain the requested hostname even
though it has ≥ 2 labels and is not `localhost`. -/
theorem combined_san_reuse_cex :
    ensureCertLocal "api.local.console"
        (some ⟨"CN=local-gateway", "DNS:local.console, DNS:*.local.console"⟩) [] =
      LocalCertResult.reused ["local.console", "*.local.console"] ∧
    ("api.local.console" ∈ (ensureCertLocal "api.local.console"
        (some ⟨"CN=local-gateway", "DNS:local.console, DNS:*.local.console"⟩) []).sans) = False ∧
    2 ≤ (splitOnDot "api.local.console".data).length ∧
    "api.local.console" ≠ "localhost" := by
  refine ⟨by decide, by simp; decide, by decide, by decide⟩

/-- Per-host certificate record on disk for a public hostname:
`storage/<host>.crt` / `.key`, whether `tls.createSecureContext` accepts
them, and the certificate's remaining validity in days.  The validity
field is what the 10-day policy would consult. -/
structure DiskCert where
  certExists : Bool
  keyExists : Bool
  parses : Bool
  daysRemaining : Int
  deriving Repr, DecidableEq

/-- What `selfSigned(hostname)` (gateway.js lines 292-341) can reuse:
the SANs of pre-existing `<host>.crt`/`.key` files, or of the
`<host>_selfsigned.json` cache blob. -/
structure SelfSignedStore where
  filesSans : Option (List String)
  jsonSans : Option (List String)
  deriving Repr, DecidableEq

/-- How `ensureCert` obtained a public host's certificate, with the SAN
set of the result. -/
inductive PubCertSource where
  | reusedExisting
  | acmeIssued (sans : List String)
  | selfSignedFallback (sans : List String)
  deriving Repr, DecidableEq

/-- `selfSigned(hostname)`: reuse `<host>.crt`/`.key` when both exist,
else the JSON cache blob, else generate a fresh self-signed certificate
whose only SAN is the hostname. -/
def selfSignedSans (hostname : String) (ss : SelfSignedStore) : List String :=
  match ss.filesSans with
  | some sans => sans
  | none =>
    match ss.jsonSans with
    | some sans => sans
    | none => [hostname]

/-- The public branch of `ensureCert` (gateway.js lines 81-97 and
221-259), for a hostname with `isLocalDomainName` false: reuse the
per-host record whenever both files exist and parse — the
`daysRemaining` field is never consulted, despite the comments
"Use existing if present & not expiring soon" / "If valid for >10 days,
reuse" — else attempt ACME with CSR SANs = `altNames` (or `[hostname]`),
and on ACME failure fall back to `selfSigned(hostname)`. -/
def ensureCertPublic (hostname : String) (disk : DiskCert) (ss : SelfSignedStore)
    (altNames : List String) (acmeOk : Bool) : PubCertSource :=
  if disk.certExists && disk.keyExists && disk.parses then
    PubCertSource.reusedExisting
  else if acmeOk then
    PubCertSource.acmeIssued (if altNames.isEmpty then [hostname] else altNames)
  else
    PubCertSource.selfSignedFallback (selfSignedSans hostname ss)

/-- Fresh self-signed store: no reusable files. -/
def freshStore : SelfSignedStore := { filesSans := none, jsonSans := none }

/-- **C3** (code_bug).  A per-host record with only 1 day of validity left
is reused as-is — ACME renewal is never attempted — and in general
`ensureCertPublic` is constant in `daysRemaining`, contradicting the
10-day reuse threshold asserted by the code's own comments and the spec.
The ACME-failure fallback does generate a fresh self-signed certificate
whose only SAN is the hostname when nothing reusable is on disk. -/
theorem public_reuse_ignores_validity :
    (∀ d₁ d₂ : Int, ∀ (e k p : Bool) (ss : SelfSignedStore)
        (alt : List String) (acmeOk : Bool),
      ensureCertPublic "api.example.com" ⟨e, k, p, d₁⟩ ss alt acmeOk =
        ensureCertPublic "api.example.com" ⟨e, k, p, d₂⟩ ss alt acmeOk) ∧
    ensureCertPublic "api.example.com" ⟨true, true, true, 1⟩ freshStore [] false =
      PubCertSource.reusedExisting ∧
    ensureCertPublic "api.example.com" ⟨false, false, false, 0⟩ freshStore [] false =
      PubCertSource.selfSignedFallback ["api.example.com"] := by
  refine ⟨fun d₁ d₂ e k p ss alt acmeOk => rfl, by decide, by decide⟩

end Gateway

namespace Gateway

/- ===================================================================
   URL model for the Location-rewrite logic (`gateway.js` lines 347-407).
   A partial but faithful embedding of the WHATWG URL behaviour the
   handler relies on: absolute `http(s)` URLs and path-absolute
   references whose components contain only characters the WHATWG parser
   copies verbatim (no percent-normalization, no dot-segment collapse,
   no exotic whitespace); inputs outside this fragment parse to `none`.
   =================================================================== -/

def isDigitCh (c : Char) : Bool := '0' ≤ c && c ≤ '9'

/-- Characters the WHATWG parser copies verbatim inside path, query and
fragment components (so no normalization occurs on them). -/
def compCharOk (c : Char) : Bool :=
  ('a' ≤ c && c ≤ 'z') || ('A' ≤ c && c ≤ 'Z') || isDigitCh c ||
  c == '-' || c == '.' || c == '_' || c == '~' || c == '!' || c == '$' ||
  c == '&' || c == '(' || c == ')' || c == '*' || c == '+' || c == ',' ||
  c == ';' || c == '=' || c == ':' || c == '@' || c == '/' || c == '%'

def queryCharOk (c : Char) : Bool := compCharOk c || c == '?'

def hostCharOk (c : Char) : Bool :=
  ('a' ≤ c && c ≤ 'z') || isDigitCh c || c == '.' || c == '-'

def rawHostCharOk (c : Char) : Bool := hostCharOk c || ('A' ≤ c && c ≤ 'Z')

/-- Split at the first occurrence of `c`: the part before, and the part
after (`none` when `c` does not occur). -/
def splitFirst (c : Char) : List Char → List Char × Option (List Char)
  | [] => ([], none)
  | x :: xs =>
    if x == c then ([], some xs)
    else
      let (before, after) := splitFirst c xs
      (x :: before, after)

/-- Split at every occurrence of `c` (JS `String.prototype.split`). -/
def splitOnCh (c : Char) : List Char → List (List Char)
  | [] => [[]]
  | x :: xs =>
    if x == c then [] :: splitOnCh c xs
    else
      match splitOnCh c xs with
      | [] => [[x]]
      | p :: rest => (x :: p) :: rest

/-- No `.` or `..` path segment (inputs with them would be collapsed by
the WHATWG parser, so they are outside the modelled fragment). -/
def noDotSegs (path : List Char) : Bool :=
  (splitOnCh '/' path).all fun seg => !(seg == ['.']) && !(seg == ['.', '.'])

def pathOkB (path : List Char) : Bool :=
  path.head? == some '/' && path.all compCharOk && noDotSegs path

structure UrlModel where
  scheme : String
  host : String
  port : Option String
  pathname : String
  search : String
  hash : String
  deriving Repr, DecidableEq

def defaultPort (scheme : String) : String := if scheme == "https" then "443" else "80"

def portOkB (scheme : String) (p : List Char) : Bool :=
  !p.isEmpty && p.all isDigitCh && !(p.head? == some '0') &&
  !((⟨p⟩ : String) == defaultPort scheme)

/-- Authority + path of an absolute URL, after `scheme://`. -/
def parseAuthPath (scheme : String) (rest : List Char) (search hash : List Char) :
    Option UrlModel :=
  let (auth, pathOpt) := splitFirst '/' rest
  let path : List Char := match pathOpt with | none => ['/'] | some p => '/' :: p
  if !pathOkB path then none
  else
    let (hostRaw, portOpt) := splitFirst ':' auth
    if hostRaw.isEmpty || !hostRaw.all rawHostCharOk then none
    else
      let host : String := ⟨hostRaw.map lowerChar⟩
      match portOpt with
      | none => some ⟨scheme, host, none, ⟨path⟩, ⟨search⟩, ⟨hash⟩⟩
      | some p =>
        if p.isEmpty || !p.all isDigitCh || p.head? == some '0' then none
        else if (⟨p⟩ : String) == defaultPort scheme then
          some ⟨scheme, host, none, ⟨path⟩, ⟨search⟩, ⟨hash⟩⟩
        else some ⟨scheme, host, some ⟨p⟩, ⟨path⟩, ⟨search⟩, ⟨hash⟩⟩

/-- Fragment/query splitting shared by absolute and relative parses:
returns (pre-query part, search component, hash component). -/
def splitRef (cs : List Char) : Option (List Char × List Char × List Char) :=
  let (beforeHash, hashOpt) := splitFirst '#' cs
  let hashOk := match hashOpt with | none => true | some h => !h.isEmpty && h.all queryCharOk
  if !hashOk then none
  else
    let (beforeQ, qOpt) := splitFirst '?' beforeHash
    let qOk := match qOpt with | none => true | some q => !q.isEmpty && q.all queryCharOk
    if !qOk then none
    else
      let hash : List Char := match hashOpt with | none => [] | some h => '#' :: h
      let search : List Char := match qOpt with | none => [] | some q => '?' :: q
      some (beforeQ, search, hash)

/-- `scheme://` recognition (lowercase `http`/`https` only; other inputs
are outside the modelled fragment). -/
def schemeSplit (cs : List Char) : Option (String × List Char) :=
  match cs with
  | 'h' :: 't' :: 't' :: 'p' :: 's' :: ':' :: '/' :: '/' :: rest => some ("https", rest)
  | 'h' :: 't' :: 't' :: 'p' :: ':' :: '/' :: '/' :: rest => some ("http", rest)
  | _ => none

/-- `new URL(s)` (no base): absolute `http(s)` URLs in the modelled
fragment. -/
def parseUrlAbs (s : String) : Option UrlModel :=
  match splitRef s.data with
  | none => none
  | some (beforeQ, search, hash) =>
    match schemeSplit beforeQ with
    | none => none
    | some (scheme, rest) => parseAuthPath scheme rest search hash

/-- The Location-rewrite request context: the incoming `Host` header,
the upstream target, and the socket's local port. -/
structure RewriteCtx where
  publicHostFull : String
  upstreamHost : String
  upstreamProtocol : String
  socketLocalPort : Option String
  deriving Repr, DecidableEq

/-- `new URL(loc, upstreamProtocol + "://" + upstreamHost)`: absolute
URLs as above, or path-absolute references resolved against the
upstream base. -/
def parseUrl (ctx : RewriteCtx) (loc : String) : Option UrlModel :=
  match parseUrlAbs loc with
  | some u => some u
  | none =>
    match splitRef loc.data with
    | none => none
    | some (beforeQ, search, hash) =>
      match beforeQ with
      | '/' :: rest =>
        if (match rest with | '/' :: _ => true | _ => false) then none
        else if !(ctx.upstreamProtocol == "http" || ctx.upstreamProtocol == "https") then none
        else if ctx.upstreamHost.data.isEmpty || !ctx.upstreamHost.data.all rawHostCharOk then
          none
        else if !pathOkB ('/' :: rest) then none
        else some ⟨ctx.upstreamProtocol, ⟨ctx.upstreamHost.data.map lowerChar⟩, none,
          ⟨'/' :: rest⟩, ⟨search⟩, ⟨hash⟩⟩
      | _ => none

def serializeUrl (u : UrlModel) : String :=
  u.scheme ++ "://" ++ u.host ++
  (match u.port with | some p => ":" ++ p | none => "") ++
  u.pathname ++ u.search ++ u.hash


end Gateway
namespace Gateway

/- form-urlencoded (URLSearchParams) -/

def hexVal (c : Char) : Nat :=
  if '0' ≤ c ∧ c ≤ '9' then c.toNat - '0'.toNat
  else if 'a' ≤ c ∧ c ≤ 'f' then c.toNat - 'a'.toNat + 10
  else if 'A' ≤ c ∧ c ≤ 'F' then c.toNat - 'A'.toNat + 10
  else 0

def isHexDigit (c : Char) : Bool :=
  ('0' ≤ c && c ≤ '9') || ('a' ≤ c && c ≤ 'f') || ('A' ≤ c && c ≤ 'F')

def formDecode : List Char → List Char
  | [] => []
  | '%' :: a :: b :: rest =>
    if isHexDigit a && isHexDigit b then
      Char.ofNat (hexVal a * 16 + hexVal b) :: formDecode rest
    else '%' :: formDecode (a :: b :: rest)
  | '+' :: rest => ' ' :: formDecode rest
  | c :: rest => c :: formDecode rest

def isFormSafe (c : Char) : Bool :=
  ('a' ≤ c && c ≤ 'z') || ('A' ≤ c && c ≤ 'Z') || isDigitCh c ||
  c == '*' || c == '-' || c == '.' || c == '_'

def hexDigitU (n : Nat) : Char :=
  if n < 10 then Char.ofNat ('0'.toNat + n) else Char.ofNat ('A'.toNat + (n - 10))

def formEncode : List Char → List Char
  | [] => []
  | c :: rest =>
    if c == ' ' then '+' :: formEncode rest
    else if isFormSafe c then c :: formEncode rest
    else '%' :: hexDigitU (c.toNat % 256 / 16) :: hexDigitU (c.toNat % 16) :: formEncode rest

def parseQuery (q : List Char) : List (List Char × List Char) :=
  (splitOnCh '&' q).filterMap fun seg =>
    if seg.isEmpty then none
    else
      let (n, vOpt) := splitFirst '=' seg
      some (formDecode n, formDecode (vOpt.getD []))

def serializePair (p : List Char × List Char) : List Char :=
  formEncode p.1 ++ '=' :: formEncode p.2

def serializeQuery : List (List Char × List Char) → List Char
  | [] => []
  | [p] => serializePair p
  | p :: rest => serializePair p ++ '&' :: serializeQuery rest

/-- `URLSearchParams.set`: replace the first pair with the name, drop the
rest; append when absent. -/
def setPairs : List (List Char × List Char) → List Char → List Char →
    List (List Char × List Char)
  | [], n, v => [(n, v)]
  | p :: rest, n, v =>
    if p.1 == n then (n, v) :: rest.filter (fun q => !(q.1 == n))
    else p :: setPairs rest n v

def queryGet (search : String) (name : String) : Option String :=
  match search.data with
  | '?' :: q => ((parseQuery q).find? fun p => p.1 == name.data).map fun p => ⟨p.2⟩
  | _ => none

def querySet (search : String) (name v : String) : String :=
  let q : List Char := match search.data with | '?' :: q => q | _ => []
  ⟨'?' :: serializeQuery (setPairs (parseQuery q) name.data v.data)⟩

/- ensureCallbackPort (gateway.js lines 363-386) -/

def publicHost (ctx : RewriteCtx) : String :=
  ⟨(splitFirst ':' ctx.publicHostFull.data).1⟩

def incomingPort (ctx : RewriteCtx) : Option String :=
  match splitOnCh ':' ctx.publicHostFull.data with
  | [_, p] => if p.isEmpty then ctx.socketLocalPort else some ⟨p⟩
  | _ => ctx.socketLocalPort

/-- WHATWG `port` setter for an all-digit value: default port stores as
empty. -/
def setPort (u : UrlModel) (p : String) : UrlModel :=
  if !p.data.isEmpty && p.data.all isDigitCh then
    if p == defaultPort u.scheme then { u with port := none }
    else { u with port := some p }
  else u

/-- The callback-port injection, as a function of the search component
alone (it reads and writes nothing else of the URL). -/
def injectSearch (ctx : RewriteCtx) (search : String) : String :=
  match queryGet search "callback" with
  | none => search
  | some cb =>
    match parseUrlAbs cb with
    | none => search
    | some cbu =>
      if cbu.host == publicHost ctx && cbu.port == none then
        match incomingPort ctx with
        | none => search
        | some p => querySet search "callback" (serializeUrl (setPort cbu p))
      else search

def ensureCallbackPort (ctx : RewriteCtx) (u : UrlModel) : UrlModel :=
  { u with search := injectSearch ctx u.search }

def isInternalHost (ctx : RewriteCtx) (h : String) : Bool :=
  h == ctx.upstreamHost || h == "127.0.0.1" || h == "localhost" || h == "::1"

/-- proxyRes Location rewrite (gateway.js lines 388-396); `none` when the
Location is outside the modelled URL fragment. -/
def rewriteLocation (ctx : RewriteCtx) (loc : String) : Option String :=
  match parseUrl ctx loc with
  | none => none
  | some u =>
    let u' := ensureCallbackPort ctx u
    if isInternalHost ctx u.host then
      some ("https://" ++ ctx.publicHostFull ++ u'.pathname ++ u'.search ++ u'.hash)
    else some (serializeUrl u')

def ctx₀ : RewriteCtx := ⟨"app.example.com:4443", "127.0.0.1", "http", none⟩
def ctx443 : RewriteCtx := ⟨"app.example.com:443", "127.0.0.1", "http", none⟩

end Gateway
namespace Gateway

/-- Context wellformedness for the rewrite theorems: the Host header is a
canonical lowercase host, optionally with a canonical non-443 port, and
the upstream target is a plain host name with an http(s) protocol. -/
def ctxWF (ctx : RewriteCtx) : Bool :=
  (match splitOnCh ':' ctx.publicHostFull.data with
   | [h] => !h.isEmpty && h.all hostCharOk
   | [h, p] => (!h.isEmpty && h.all hostCharOk) &&
       (!p.isEmpty && p.all isDigitCh && !(p.head? == some '0') &&
        !((⟨p⟩ : String) == "443"))
   | _ => false) &&
  (ctx.upstreamProtocol == "http" || ctx.upstreamProtocol == "https") &&
  (!ctx.upstreamHost.data.isEmpty && ctx.upstreamHost.data.all rawHostCharOk) &&
  (match ctx.socketLocalPort with
   | none => true
   | some q => !q.data.isEmpty && q.data.all isDigitCh && !(q.data.head? == some '0'))

def searchOkB (s : List Char) : Bool :=
  s.isEmpty || ((s.head? == some '?') && !s.tail.isEmpty && s.tail.all queryCharOk)

def hashOkB (s : List Char) : Bool :=
  s.isEmpty || ((s.head? == some '#') && !s.tail.isEmpty && s.tail.all queryCharOk)

def urlWFB (u : UrlModel) : Bool :=
  (u.scheme == "http" || u.scheme == "https") &&
  (!u.host.data.isEmpty && u.host.data.all hostCharOk) &&
  (match u.port with | none => true | some p => portOkB u.scheme p.data) &&
  pathOkB u.pathname.data &&
  searchOkB u.search.data &&
  hashOkB u.hash.data

lemma splitFirst_not_mem {c : Char} {l : List Char} (h : c ∉ l) :
    splitFirst c l = (l, none) := by
  induction l with
  | nil => rfl
  | cons x xs ih =>
    rw [splitFirst]
    have hx : ¬ (x == c) = true := by
      simp only [beq_iff_eq]
      rintro rfl; exact h (List.mem_cons_self x xs)
    rw [if_neg hx, ih (fun hm => h (List.mem_cons_of_mem x hm))]

lemma splitFirst_append {c : Char} {l₁ : List Char} (l₂ : List Char) (h : c ∉ l₁) :
    splitFirst c (l₁ ++ c :: l₂) = (l₁, some l₂) := by
  induction l₁ with
  | nil => simp [splitFirst]
  | cons x xs ih =>
    rw [List.cons_append, splitFirst]
    have hx : ¬ (x == c) = true := by
      simp only [beq_iff_eq]
      rintro rfl; exact h (List.mem_cons_self x xs)
    rw [if_neg hx, ih (fun hm => h (List.mem_cons_of_mem x hm))]

lemma splitOnCh_not_mem {c : Char} {l : List Char} (h : c ∉ l) :
    splitOnCh c l = [l] := by
  induction l with
  | nil => rfl
  | cons x xs ih =>
    rw [splitOnCh]
    have hx : ¬ (x == c) = true := by
      simp only [beq_iff_eq]
      rintro rfl; exact h (List.mem_cons_self x xs)
    rw [if_neg hx, ih (fun hm => h (List.mem_cons_of_mem x hm))]

lemma splitOnCh_append {c : Char} {l₁ : List Char} (l₂ : List Char) (h : c ∉ l₁) :
    splitOnCh c (l₁ ++ c :: l₂) = l₁ :: splitOnCh c l₂ := by
  induction l₁ with
  | nil => simp [splitOnCh]
  | cons x xs ih =>
    rw [List.cons_append, splitOnCh]
    have hx : ¬ (x == c) = true := by
      simp only [beq_iff_eq]
      rintro rfl; exact h (List.mem_cons_self x xs)
    rw [if_neg hx, ih (fun hm => h (List.mem_cons_of_mem x hm))]

lemma splitOnCh_ne_nil (c : Char) (l : List Char) : splitOnCh c l ≠ [] := by
  cases l with
  | nil => simp [splitOnCh]
  | cons x xs =>
    rw [splitOnCh]
    by_cases hx : (x == c) = true
    · rw [if_pos hx]; simp
    · rw [if_neg hx]
      cases splitOnCh c xs <;> simp

lemma mem_of_mem_splitOnCh {c : Char} {l : List Char} {x : Char} :
    ∀ seg ∈ splitOnCh c l, x ∈ seg → x ∈ l := by
  induction l with
  | nil =>
    intro seg hseg hx
    simp [splitOnCh] at hseg
    subst hseg; cases hx
  | cons y ys ih =>
    intro seg hseg hx
    rw [splitOnCh] at hseg
    by_cases hy : (y == c) = true
    · rw [if_pos hy] at hseg
      rcases List.mem_cons.mp hseg with h | h
      · subst h; cases hx
      · exact List.mem_cons_of_mem y (ih seg h hx)
    · rw [if_neg hy] at hseg
      cases hsp : splitOnCh c ys with
      | nil => exact absurd hsp (splitOnCh_ne_nil c ys)
      | cons p rest =>
        rw [hsp] at hseg
        rcases List.mem_cons.mp hseg with h | h
        · subst h
          rcases List.mem_cons.mp hx with h | h
          · exact h ▸ List.mem_cons_self y ys
          · exact List.mem_cons_of_mem y
              (ih p (hsp ▸ List.mem_cons_self p rest) h)
        · exact List.mem_cons_of_mem y
            (ih seg (hsp ▸ List.mem_cons_of_mem p h) hx)

end Gateway
namespace Gateway

lemma toNat_ofNat_valid (n : Nat) (h : n < 55296) : (Char.ofNat n).toNat = n := by
  unfold Char.ofNat
  rw [dif_pos (Or.inl h : Nat.isValidChar n)]
  rfl

lemma lowerChar_eq_self_of_not_upper (c : Char) (h : ¬ ('A' ≤ c ∧ c ≤ 'Z')) :
    lowerChar c = c := by
  unfold lowerChar
  rw [if_neg h]

lemma lowerChar_eq_self_of_hostCharOk (c : Char) (h : hostCharOk c = true) :
    lowerChar c = c := by
  apply lowerChar_eq_self_of_not_upper
  rintro ⟨hA, hZ⟩
  simp only [hostCharOk, isDigitCh, Bool.or_eq_true, Bool.and_eq_true,
    decide_eq_true_eq, beq_iff_eq] at h
  rcases h with ((⟨ha, _⟩ | ⟨_, h9⟩) | rfl) | rfl
  · exact absurd (le_trans ha hZ) (by decide)
  · exact absurd (le_trans hA h9) (by decide)
  · exact absurd hA (by decide)
  · exact absurd hA (by decide)

lemma hostCharOk_lowerChar (c : Char) (h : rawHostCharOk c = true) :
    hostCharOk (lowerChar c) = true := by
  simp only [rawHostCharOk, Bool.or_eq_true, Bool.and_eq_true, decide_eq_true_eq] at h
  rcases h with h | ⟨hA, hZ⟩
  · rw [lowerChar_eq_self_of_hostCharOk c h]; exact h
  · have ha : 65 ≤ c.toNat := hA
    have hb : c.toNat ≤ 90 := hZ
    have hval : (Char.ofNat (c.toNat + 32)).toNat = c.toNat + 32 :=
      toNat_ofNat_valid _ (by omega)
    have hlc : lowerChar c = Char.ofNat (c.toNat + 32) := by
      unfold lowerChar
      rw [if_pos ⟨hA, hZ⟩]
    rw [hlc]
    have hlo : (97 : Nat) ≤ (Char.ofNat (c.toNat + 32)).toNat := by rw [hval]; omega
    have hhi : (Char.ofNat (c.toNat + 32)).toNat ≤ 122 := by rw [hval]; omega
    simp only [hostCharOk, Bool.or_eq_true, Bool.and_eq_true, decide_eq_true_eq]
    exact Or.inl (Or.inl (Or.inl ⟨hlo, hhi⟩))

lemma not_mem_of_all {p : Char → Bool} {c : Char} {l : List Char}
    (hl : l.all p = true) (hc : p c = false) : c ∉ l := by
  intro hmem
  have := List.all_eq_true.mp hl c hmem
  rw [hc] at this
  cases this

lemma compCharOk_of_hostCharOk {c : Char} (h : hostCharOk c = true) :
    compCharOk c = true := by
  simp only [hostCharOk, isDigitCh, Bool.or_eq_true, Bool.and_eq_true,
    decide_eq_true_eq, beq_iff_eq] at h
  simp only [compCharOk, isDigitCh, Bool.or_eq_true, Bool.and_eq_true,
    decide_eq_true_eq, beq_iff_eq]
  rcases h with ((h | h) | rfl) | rfl
  · tauto
  · tauto
  · tauto
  · tauto

lemma compCharOk_of_isDigitCh {c : Char} (h : isDigitCh c = true) :
    compCharOk c = true := by
  simp only [compCharOk, Bool.or_eq_true]
  tauto

lemma queryCharOk_of_compCharOk {c : Char} (h : compCharOk c = true) :
    queryCharOk c = true := by
  simp only [queryCharOk, Bool.or_eq_true]
  tauto

end Gateway
namespace Gateway

lemma rawHostCharOk_of_hostCharOk {c : Char} (h : hostCharOk c = true) :
    rawHostCharOk c = true := by
  simp only [rawHostCharOk, Bool.or_eq_true]
  tauto

lemma splitRef_assembled (core search hash : List Char)
    (hcore : core.all compCharOk = true)
    (hq : search = [] ∨ ∃ q, search = '?' :: q ∧ (!q.isEmpty && q.all queryCharOk) = true)
    (hhs : hash = [] ∨ ∃ h, hash = '#' :: h ∧ (!h.isEmpty && h.all queryCharOk) = true) :
    splitRef (core ++ search ++ hash) = some (core, search, hash) := by
  have hc_hash : ('#' : Char) ∉ core := not_mem_of_all hcore (by decide)
  have hc_q : ('?' : Char) ∉ core := not_mem_of_all hcore (by decide)
  have hs_hash : ('#' : Char) ∉ search := by
    rcases hq with rfl | ⟨q, rfl, hok⟩
    · simp
    · rw [Bool.and_eq_true] at hok
      intro hm
      rcases List.mem_cons.mp hm with h | h
      · exact absurd h (by decide)
      · exact not_mem_of_all hok.2 (by decide) h
  have hcs_hash : ('#' : Char) ∉ core ++ search := by
    intro hm
    rcases List.mem_append.mp hm with h | h
    · exact hc_hash h
    · exact hs_hash h
  rcases hhs with rfl | ⟨hh, rfl, hokh⟩
  · rw [List.append_nil]
    have h1 : splitFirst '#' (core ++ search) = (core ++ search, none) :=
      splitFirst_not_mem hcs_hash
    rcases hq with rfl | ⟨q, rfl, hokq⟩
    · rw [List.append_nil] at h1 ⊢
      have h2 : splitFirst '?' core = (core, none) := splitFirst_not_mem hc_q
      simp [splitRef, h1, h2]
    · have h2 : splitFirst '?' (core ++ '?' :: q) = (core, some q) :=
        splitFirst_append q hc_q
      rw [Bool.and_eq_true] at hokq
      simp [splitRef, h1, h2, hokq.1, hokq.2]
  · have h1 : splitFirst '#' ((core ++ search) ++ '#' :: hh) = (core ++ search, some hh) :=
      splitFirst_append hh hcs_hash
    simp only [List.append_assoc, List.cons_append] at h1
    rw [Bool.and_eq_true] at hokh
    rcases hq with rfl | ⟨q, rfl, hokq⟩
    · simp only [List.nil_append] at h1
      have h2 : splitFirst '?' core = (core, none) := splitFirst_not_mem hc_q
      simp [splitRef, h1, h2, hokh.1, hokh.2]
    · have h2 : splitFirst '?' (core ++ '?' :: q) = (core, some q) :=
        splitFirst_append q hc_q
      simp only [List.cons_append] at h1
      rw [Bool.and_eq_true] at hokq
      simp [splitRef, h1, h2, hokq.1, hokq.2, hokh.1, hokh.2]

lemma map_lowerChar_self {l : List Char} (h : l.all hostCharOk = true) :
    l.map lowerChar = l := by
  rw [List.map_congr_left (fun c hc =>
    lowerChar_eq_self_of_hostCharOk c (List.all_eq_true.mp h c hc))]
  exact List.map_id l

lemma parseAuthPath_assembled (scheme : String) (host : List Char)
    (portD : Option (List Char)) (path search hash : List Char)
    (hhost : host ≠ [] ∧ host.all hostCharOk = true)
    (hport : ∀ p, portD = some p → portOkB scheme p = true)
    (hpath : pathOkB path = true) :
    parseAuthPath scheme
      (host ++ ((match portD with | none => [] | some p => ':' :: p) ++ path))
      search hash =
      some ⟨scheme, ⟨host⟩, portD.map (fun p => ⟨p⟩), ⟨path⟩, ⟨search⟩, ⟨hash⟩⟩ := by
  obtain ⟨hne, hall⟩ := hhost
  have hslash_host : ('/' : Char) ∉ host := not_mem_of_all hall (by decide)
  have hcolon_host : (':' : Char) ∉ host := not_mem_of_all hall (by decide)
  obtain ⟨tail, rfl⟩ : ∃ tail, path = '/' :: tail := by
    cases path with
    | nil => simp [pathOkB] at hpath
    | cons c tail =>
      refine ⟨tail, ?_⟩
      have : (c == '/') = true := by
        rw [pathOkB, Bool.and_eq_true, Bool.and_eq_true] at hpath
        have := hpath.1.1
        simpa using this
      rw [beq_iff_eq] at this
      rw [this]
  have hisE : host.isEmpty = false := by
    cases host with
    | nil => exact absurd rfl hne
    | cons a as => rfl
  have hraw : host.all rawHostCharOk = true := by
    rw [List.all_eq_true] at hall ⊢
    exact fun c hc => rawHostCharOk_of_hostCharOk (hall c hc)
  have hmap : host.map lowerChar = host := map_lowerChar_self hall
  cases portD with
  | none =>
    have h1 : splitFirst '/' (host ++ '/' :: tail) = (host, some tail) :=
      splitFirst_append tail hslash_host
    have h2 : splitFirst ':' host = (host, none) := splitFirst_not_mem hcolon_host
    simp [parseAuthPath, h1, h2, hpath, hisE, hraw, hmap]
  | some p =>
    have hpok := hport p rfl
    rw [portOkB, Bool.and_eq_true, Bool.and_eq_true, Bool.and_eq_true] at hpok
    obtain ⟨⟨⟨hpne, hpdig⟩, hphead⟩, hpdef⟩ := hpok
    have hslash : ('/' : Char) ∉ host ++ ':' :: p := by
      intro hm
      rcases List.mem_append.mp hm with h | h
      · exact hslash_host h
      · rcases List.mem_cons.mp h with h | h
        · exact absurd h (by decide)
        · exact not_mem_of_all hpdig (by decide) h
    have h1 : splitFirst '/' (host ++ ':' :: (p ++ '/' :: tail)) =
        (host ++ ':' :: p, some tail) := by
      have := splitFirst_append tail hslash
      simpa [List.append_assoc] using this
    have h2 : splitFirst ':' (host ++ ':' :: p) = (host, some p) :=
      splitFirst_append p hcolon_host
    simp [parseAuthPath, h1, h2, hpath, hisE, hraw, hmap, hpne, hpdig, hphead, hpdef]
    refine ⟨⟨fun hc => by simp [hc] at hpne, fun hc => by simp [hc] at hphead⟩,
      fun hc => by simp [hc] at hpdef⟩

end Gateway
namespace Gateway

lemma searchOkB_cases {s : List Char} (h : searchOkB s = true) :
    s = [] ∨ ∃ q, s = '?' :: q ∧ (!q.isEmpty && q.all queryCharOk) = true := by
  cases s with
  | nil => exact Or.inl rfl
  | cons c q =>
    simp only [searchOkB, List.isEmpty_cons, List.head?_cons, List.tail_cons,
      Bool.false_or, Bool.and_eq_true, beq_iff_eq, Option.some.injEq] at h
    obtain ⟨⟨hc, hne⟩, hall⟩ := h
    subst hc
    exact Or.inr ⟨q, rfl, by rw [Bool.and_eq_true]; exact ⟨hne, hall⟩⟩

lemma hashOkB_cases {s : List Char} (h : hashOkB s = true) :
    s = [] ∨ ∃ q, s = '#' :: q ∧ (!q.isEmpty && q.all queryCharOk) = true := by
  cases s with
  | nil => exact Or.inl rfl
  | cons c q =>
    simp only [hashOkB, List.isEmpty_cons, List.head?_cons, List.tail_cons,
      Bool.false_or, Bool.and_eq_true, beq_iff_eq, Option.some.injEq] at h
    obtain ⟨⟨hc, hne⟩, hall⟩ := h
    subst hc
    exact Or.inr ⟨q, rfl, by rw [Bool.and_eq_true]; exact ⟨hne, hall⟩⟩

lemma stripScheme_http (rest : List Char) :
    schemeSplit ('h' :: 't' :: 't' :: 'p' :: ':' :: '/' :: '/' ::rest) = some ("http", rest) := rfl

lemma stripScheme_https (rest : List Char) :
    schemeSplit ('h' :: 't' :: 't' :: 'p' :: 's' :: ':' :: '/' :: '/' ::rest) = some ("https", rest) := rfl

end Gateway
namespace Gateway

lemma parseUrlAbs_eq (s : String) (core search hash : List Char)
    (scheme : String) (rest : List Char) (u : UrlModel)
    (hdata : s.data = core ++ search ++ hash)
    (hcore : core.all compCharOk = true)
    (hq : search = [] ∨ ∃ q, search = '?' :: q ∧ (!q.isEmpty && q.all queryCharOk) = true)
    (hhs : hash = [] ∨ ∃ h, hash = '#' :: h ∧ (!h.isEmpty && h.all queryCharOk) = true)
    (hstrip : schemeSplit core = some (scheme, rest))
    (hauth : parseAuthPath scheme rest search hash = some u) :
    parseUrlAbs s = some u := by
  unfold parseUrlAbs
  rw [hdata, splitRef_assembled core search hash hcore hq hhs]
  dsimp only
  rw [hstrip]
  exact hauth

lemma parse_serialize (u : UrlModel) (hwf : urlWFB u = true) :
    parseUrlAbs (serializeUrl u) = some u := by
  obtain ⟨scheme, host, port, pathname, search, hash⟩ := u
  simp only [urlWFB, Bool.and_eq_true] at hwf
  obtain ⟨⟨⟨⟨⟨hsch, hhost⟩, hport⟩, hpath⟩, hsearch⟩, hhash⟩ := hwf
  rw [Bool.or_eq_true, beq_iff_eq, beq_iff_eq] at hsch
  obtain ⟨hhne', hhall⟩ := hhost
  have hhne : host.data ≠ [] := by
    cases hd : host.data with
    | nil => rw [hd] at hhne'; simp at hhne'
    | cons a as => simp
  have hq := searchOkB_cases hsearch
  have hhs := hashOkB_cases hhash
  have hpathall : pathname.data.all compCharOk = true := by
    rw [pathOkB, Bool.and_eq_true, Bool.and_eq_true] at hpath
    exact hpath.1.2
  have hhostcomp : host.data.all compCharOk = true := List.all_eq_true.mpr
    (fun c hc => compCharOk_of_hostCharOk (List.all_eq_true.mp hhall c hc))
  have hlit7 : (['h','t','t','p',':','/','/'] : List Char).all compCharOk = true := by
    decide
  have hlit8 : (['h','t','t','p','s',':','/','/'] : List Char).all compCharOk = true := by
    decide
  cases port with
  | none =>
    have hpa := parseAuthPath_assembled scheme host.data none pathname.data
      search.data hash.data ⟨hhne, hhall⟩ (by intro p hp; cases hp) hpath
    have hauth : parseAuthPath scheme (host.data ++ pathname.data) search.data hash.data
        = some ⟨scheme, host, none, pathname, search, hash⟩ := hpa
    rcases hsch with rfl | rfl
    · refine parseUrlAbs_eq _ (['h','t','t','p',':','/','/'] ++ (host.data ++ pathname.data))
        search.data hash.data "http" (host.data ++ pathname.data) _ ?_ ?_ hq hhs
        (stripScheme_http _) hauth
      · simp [serializeUrl, String.data_append]
      · simp [List.all_append, hlit7, hhostcomp, hpathall]
        all_goals decide
    · refine parseUrlAbs_eq _ (['h','t','t','p','s',':','/','/'] ++ (host.data ++ pathname.data))
        search.data hash.data "https" (host.data ++ pathname.data) _ ?_ ?_ hq hhs
        (stripScheme_https _) hauth
      · simp [serializeUrl, String.data_append]
      · simp [List.all_append, hlit8, hhostcomp, hpathall]
        all_goals decide
  | some p =>
    have hpok : portOkB scheme p.data = true := hport
    have hpa := parseAuthPath_assembled scheme host.data (some p.data) pathname.data
      search.data hash.data ⟨hhne, hhall⟩ (by intro q hq'; cases hq'; exact hpok) hpath
    have hauth : parseAuthPath scheme (host.data ++ (':' :: p.data ++ pathname.data))
        search.data hash.data = some ⟨scheme, host, some p, pathname, search, hash⟩ := hpa
    have hpdig : p.data.all isDigitCh = true := by
      rw [portOkB, Bool.and_eq_true, Bool.and_eq_true, Bool.and_eq_true] at hpok
      exact hpok.1.1.2
    have hpcomp : p.data.all compCharOk = true := List.all_eq_true.mpr
      (fun c hc => compCharOk_of_isDigitCh (List.all_eq_true.mp hpdig c hc))
    rcases hsch with rfl | rfl
    · refine parseUrlAbs_eq _
        (['h','t','t','p',':','/','/'] ++ (host.data ++ (':' :: p.data ++ pathname.data)))
        search.data hash.data "http" (host.data ++ (':' :: p.data ++ pathname.data)) _
        ?_ ?_ hq hhs (stripScheme_http _) hauth
      · simp [serializeUrl, String.data_append]
      · simp [List.all_append, List.all_cons, hlit7, hhostcomp, hpathall, hpcomp]
        all_goals decide
    · refine parseUrlAbs_eq _
        (['h','t','t','p','s',':','/','/'] ++ (host.data ++ (':' :: p.data ++ pathname.data)))
        search.data hash.data "https" (host.data ++ (':' :: p.data ++ pathname.data)) _
        ?_ ?_ hq hhs (stripScheme_https _) hauth
      · simp [serializeUrl, String.data_append]
      · simp [List.all_append, List.all_cons, hlit8, hhostcomp, hpathall, hpcomp]
        all_goals decide

end Gateway
namespace Gateway

lemma bool_eq_false {b : Bool} (h : ¬ b = true) : b = false := by
  cases b
  · rfl
  · exact absurd rfl h

lemma bool_not_false {b : Bool} (h : (!b) = false) : b = true := by
  cases b
  · exact absurd h (by decide)
  · rfl

lemma splitRef_wf {cs b se ha : List Char} (h : splitRef cs = some (b, se, ha)) :
    searchOkB se = true ∧ hashOkB ha = true := by
  unfold splitRef at h
  rcases h1 : splitFirst '#' cs with ⟨beforeHash, hashOpt⟩
  rw [h1] at h
  dsimp only at h
  split at h
  · exact absurd h (by simp)
  · rename_i hhok0
    have hhok0f := bool_eq_false hhok0
    rcases h2 : splitFirst '?' beforeHash with ⟨beforeQ, qOpt⟩
    rw [h2] at h
    dsimp only at h
    split at h
    · exact absurd h (by simp)
    · rename_i hqok0
      have hhok := bool_not_false hhok0f
      have hqok := bool_not_false (bool_eq_false hqok0)
      rw [Option.some.injEq, Prod.mk.injEq, Prod.mk.injEq] at h
      obtain ⟨_, hse, hha⟩ := h
      constructor
      · rw [← hse]
        cases qOpt with
        | none => simp [searchOkB]
        | some q =>
          dsimp only at hqok
          rw [Bool.and_eq_true] at hqok
          simp [searchOkB, hqok.1, hqok.2]
      · rw [← hha]
        cases hashOpt with
        | none => simp [hashOkB]
        | some hh' =>
          dsimp only at hhok
          rw [Bool.and_eq_true] at hhok
          simp [hashOkB, hhok.1, hhok.2]

lemma parseAuthPath_wf {scheme : String} {rest search hash : List Char} {u : UrlModel}
    (hs : scheme = "http" ∨ scheme = "https")
    (hse : searchOkB search = true) (hha : hashOkB hash = true)
    (h : parseAuthPath scheme rest search hash = some u) : urlWFB u = true := by
  have hsb : (scheme == "http" || scheme == "https") = true := by
    rcases hs with rfl | rfl <;> decide
  unfold parseAuthPath at h
  rcases h1 : splitFirst '/' rest with ⟨auth, pathOpt⟩
  rw [h1] at h
  dsimp only at h
  split at h
  · exact absurd h (by simp)
  · rename_i hpok0
    have hpok := bool_not_false (bool_eq_false hpok0)
    rcases h2 : splitFirst ':' auth with ⟨hostRaw, portOpt⟩
    rw [h2] at h
    dsimp only at h
    split at h
    · exact absurd h (by simp)
    · rename_i hhostok
      rw [Bool.or_eq_true] at hhostok
      push_neg at hhostok
      obtain ⟨hhne0, hhraw0⟩ := hhostok
      have hhne : hostRaw.isEmpty = false := bool_eq_false hhne0
      have hhraw : hostRaw.all rawHostCharOk = true :=
        bool_not_false (bool_eq_false hhraw0)
      have hhost1 : (!(hostRaw.map lowerChar).isEmpty) = true := by
        cases hostRaw with
        | nil => exact absurd hhne (by decide)
        | cons a as => simp
      have hhost2 : (hostRaw.map lowerChar).all hostCharOk = true := by
        rw [List.all_eq_true]
        intro c hc
        rw [List.mem_map] at hc
        obtain ⟨a, ha', rfl⟩ := hc
        exact hostCharOk_lowerChar a (List.all_eq_true.mp hhraw a ha')
      split at h
      · rw [Option.some.injEq] at h
        subst h
        simp only [urlWFB, Bool.and_eq_true]
        exact ⟨⟨⟨⟨⟨hsb, ⟨hhost1, hhost2⟩⟩, trivial⟩, hpok⟩,
          hse⟩, hha⟩
      · rename_i p
        split at h
        · exact absurd h (by simp)
        · rename_i hbad
          rw [Bool.or_eq_true, Bool.or_eq_true] at hbad
          push_neg at hbad
          obtain ⟨⟨hpne0, hpdig0⟩, hphead0⟩ := hbad
          have hpne : p.isEmpty = false := bool_eq_false hpne0
          have hpdig : p.all isDigitCh = true := bool_not_false (bool_eq_false hpdig0)
          have hphead : (p.head? == some '0') = false := bool_eq_false hphead0
          split at h
          · rename_i hdef
            rw [Option.some.injEq] at h
            subst h
            simp only [urlWFB, Bool.and_eq_true]
            exact ⟨⟨⟨⟨⟨hsb, ⟨hhost1, hhost2⟩⟩, trivial⟩, hpok⟩,
              hse⟩, hha⟩
          · rename_i hdef
            rw [Option.some.injEq] at h
            subst h
            simp only [urlWFB, Bool.and_eq_true]
            refine ⟨⟨⟨⟨⟨hsb, ⟨hhost1, hhost2⟩⟩, ?_⟩, hpok⟩,
              hse⟩, hha⟩
            show portOkB scheme p = true
            rw [portOkB, Bool.and_eq_true, Bool.and_eq_true, Bool.and_eq_true]
            refine ⟨⟨⟨by simp [hpne], hpdig⟩, by simp [hphead]⟩, by simp [hdef]⟩

lemma parseUrlAbs_wf {s : String} {u : UrlModel} (h : parseUrlAbs s = some u) :
    urlWFB u = true := by
  unfold parseUrlAbs at h
  split at h
  · exact absurd h (by simp)
  · rename_i b se ha hsr
    split at h
    · exact absurd h (by simp)
    · rename_i scheme rest hstrip
      obtain ⟨hse, hha⟩ := splitRef_wf hsr
      have hs : scheme = "http" ∨ scheme = "https" := by
        unfold schemeSplit at hstrip
        split at hstrip
        · rw [Option.some.injEq, Prod.mk.injEq] at hstrip
          exact Or.inr hstrip.1.symm
        · rw [Option.some.injEq, Prod.mk.injEq] at hstrip
          exact Or.inl hstrip.1.symm
        · exact absurd hstrip (by simp)
      exact parseAuthPath_wf hs hse hha h

lemma parseUrl_wf {ctx : RewriteCtx} {s : String} {u : UrlModel}
    (h : parseUrl ctx s = some u) : urlWFB u = true := by
  unfold parseUrl at h
  split at h
  · rename_i u' habs
    rw [Option.some.injEq] at h
    subst h
    exact parseUrlAbs_wf habs
  · split at h
    · exact absurd h (by simp)
    · rename_i b se ha hsr
      obtain ⟨hse, hha⟩ := splitRef_wf hsr
      split at h
      · rename_i rest
        split at h
        · exact absurd h (by simp)
        · split at h
          · exact absurd h (by simp)
          · split at h
            · exact absurd h (by simp)
            · split at h
              · exact absurd h (by simp)
              · rename_i hx hproto0 hbh0 hpath0
                have hproto : (ctx.upstreamProtocol == "http" ||
                    ctx.upstreamProtocol == "https") = true :=
                  bool_not_false (bool_eq_false hproto0)
                have hbh := bool_eq_false hbh0
                have hbne : ctx.upstreamHost.data.isEmpty = false := by
                  cases hin : ctx.upstreamHost.data.isEmpty
                  · rfl
                  · rw [hin] at hbh
                    simp at hbh
                have hbraw : ctx.upstreamHost.data.all rawHostCharOk = true := by
                  cases hin : ctx.upstreamHost.data.all rawHostCharOk
                  · rw [hin] at hbh
                    simp [hbne] at hbh
                  · rfl
                have hpath := bool_not_false (bool_eq_false hpath0)
                rw [Option.some.injEq] at h
                subst h
                simp only [urlWFB, Bool.and_eq_true]
                refine ⟨⟨⟨⟨⟨hproto, ?_⟩, trivial⟩, hpath⟩, hse⟩, hha⟩
                constructor
                · cases hc : ctx.upstreamHost.data with
                  | nil => rw [hc] at hbne; simp at hbne
                  | cons a as => simp
                · rw [List.all_eq_true]
                  intro c hc
                  rw [List.mem_map] at hc
                  obtain ⟨a, ha', rfl⟩ := hc
                  exact hostCharOk_lowerChar a (List.all_eq_true.mp hbraw a ha')
      · exact absurd h (by simp)

end Gateway
namespace Gateway

lemma queryCharOk_lt256 {c : Char} (h : queryCharOk c = true) : c.toNat < 256 := by
  by_contra hge
  push_neg at hge
  have hz : ¬ (c ≤ 'z') := fun hc => absurd (show c.toNat ≤ 122 from hc) (by omega)
  have hZ : ¬ (c ≤ 'Z') := fun hc => absurd (show c.toNat ≤ 90 from hc) (by omega)
  have h9 : ¬ (c ≤ '9') := fun hc => absurd (show c.toNat ≤ 57 from hc) (by omega)
  have hne : ∀ d : Char, d.toNat < 256 → c ≠ d := by
    intro d hd hc
    subst hc
    omega
  simp [queryCharOk, compCharOk, isDigitCh, hz, hZ, h9, beq_iff_eq,
    hne '-' (by decide), hne '.' (by decide), hne '_' (by decide), hne '~' (by decide),
    hne '!' (by decide), hne '$' (by decide), hne '&' (by decide), hne '(' (by decide),
    hne ')' (by decide), hne '*' (by decide), hne '+' (by decide), hne ',' (by decide),
    hne ';' (by decide), hne '=' (by decide), hne ':' (by decide), hne '@' (by decide),
    hne '/' (by decide), hne '%' (by decide), hne '?' (by decide)] at h

lemma hexDigitU_isHex {n : Nat} (h : n < 16) : isHexDigit (hexDigitU n) = true := by
  interval_cases n <;> decide

lemma hexVal_hexDigitU {n : Nat} (h : n < 16) : hexVal (hexDigitU n) = n := by
  interval_cases n <;> decide

lemma hexDigitU_props {n : Nat} (h : n < 16) :
    queryCharOk (hexDigitU n) = true ∧ hexDigitU n ≠ '&' ∧ hexDigitU n ≠ '=' := by
  interval_cases n <;> exact ⟨by decide, by decide, by decide⟩

lemma formSafe_props {c : Char} (h : isFormSafe c = true) :
    queryCharOk c = true ∧ c ≠ '&' ∧ c ≠ '=' ∧ c ≠ '%' ∧ c ≠ '+' := by
  simp only [isFormSafe, isDigitCh, Bool.or_eq_true, Bool.and_eq_true,
    decide_eq_true_eq, beq_iff_eq] at h
  rcases h with ((((((⟨h1, h2⟩ | ⟨h1, h2⟩) | ⟨h1, h2⟩) | rfl) | rfl) | rfl) | rfl)
  · exact ⟨by simp [queryCharOk, compCharOk, h1, h2],
      fun hc => absurd (hc ▸ h1) (by decide), fun hc => absurd (hc ▸ h1) (by decide),
      fun hc => absurd (hc ▸ h1) (by decide), fun hc => absurd (hc ▸ h1) (by decide)⟩
  · exact ⟨by simp [queryCharOk, compCharOk, h1, h2],
      fun hc => absurd (hc ▸ h1) (by decide), fun hc => absurd (hc ▸ h1) (by decide),
      fun hc => absurd (hc ▸ h1) (by decide), fun hc => absurd (hc ▸ h1) (by decide)⟩
  · exact ⟨by simp [queryCharOk, compCharOk, isDigitCh, h1, h2],
      fun hc => absurd (hc ▸ h1) (by decide), fun hc => absurd (hc ▸ h2) (by decide),
      fun hc => absurd (hc ▸ h1) (by decide), fun hc => absurd (hc ▸ h1) (by decide)⟩
  all_goals exact ⟨by decide, by decide, by decide, by decide, by decide⟩

lemma formEncode_mem {l : List Char} :
    ∀ c ∈ formEncode l, queryCharOk c = true ∧ c ≠ '&' ∧ c ≠ '=' := by
  induction l with
  | nil => intro c hc; cases hc
  | cons x rest ih =>
    intro c hc
    rw [formEncode] at hc
    split at hc
    · rcases List.mem_cons.mp hc with rfl | hm
      · exact ⟨by decide, by decide, by decide⟩
      · exact ih c hm
    · split at hc
      · rcases List.mem_cons.mp hc with rfl | hm
        · rename_i hsafe
          obtain ⟨hq, h1, h2, _, _⟩ := formSafe_props hsafe
          exact ⟨hq, h1, h2⟩
        · exact ih c hm
      · rcases List.mem_cons.mp hc with rfl | hm
        · exact ⟨by decide, by decide, by decide⟩
        · rcases List.mem_cons.mp hm with rfl | hm'
          · exact hexDigitU_props (by omega)
          · rcases List.mem_cons.mp hm' with rfl | hm''
            · exact hexDigitU_props (by omega)
            · exact ih c hm''

lemma formDecode_cons_other {c : Char} {rest : List Char} (h1 : c ≠ '%') (h2 : c ≠ '+') :
    formDecode (c :: rest) = c :: formDecode rest := by
  rw [formDecode.eq_def]
  split
  · rename_i heq; exact absurd heq (by simp)
  · rename_i heq
    rw [List.cons.injEq] at heq
    exact absurd heq.1 h1
  · rename_i heq
    rw [List.cons.injEq] at heq
    exact absurd heq.1 h2
  · rename_i x r heq
    rw [List.cons.injEq] at heq
    rw [heq.1, heq.2]

lemma formDecode_pct (a b : Char) (rest : List Char)
    (h : (isHexDigit a && isHexDigit b) = true) :
    formDecode ('%' :: a :: b :: rest) =
      Char.ofNat (hexVal a * 16 + hexVal b) :: formDecode rest := by
  rw [formDecode.eq_def]
  simp [h]

lemma formDecode_formEncode {l : List Char} (h : ∀ c ∈ l, c.toNat < 256) :
    formDecode (formEncode l) = l := by
  induction l with
  | nil => rfl
  | cons c rest ih =>
    have hrest : ∀ x ∈ rest, x.toNat < 256 := fun x hx => h x (List.mem_cons_of_mem c hx)
    rw [formEncode]
    split
    · rename_i hsp
      rw [beq_iff_eq] at hsp
      subst hsp
      rw [show formDecode ('+' :: formEncode rest) = ' ' :: formDecode (formEncode rest)
        from rfl, ih hrest]
    · split
      · rename_i hsafe
        obtain ⟨_, _, _, h3, h4⟩ := formSafe_props hsafe
        rw [formDecode_cons_other h3 h4, ih hrest]
      · have hhi : c.toNat % 256 / 16 < 16 := by omega
        have hlo : c.toNat % 16 < 16 := by omega
        rw [formDecode_pct _ _ _
          (by rw [Bool.and_eq_true]; exact ⟨hexDigitU_isHex hhi, hexDigitU_isHex hlo⟩)]
        rw [hexVal_hexDigitU hhi, hexVal_hexDigitU hlo, ih hrest]
        have hc : c.toNat < 256 := h c (List.mem_cons_self c rest)
        have : c.toNat % 256 / 16 * 16 + c.toNat % 16 = c.toNat := by omega
        rw [this, Char.ofNat_toNat]

end Gateway
namespace Gateway

lemma hexVal_lt16 (a : Char) : hexVal a < 16 := by
  unfold hexVal
  split
  · rename_i h
    have h2 : a.toNat ≤ 57 := h.2
    have h0 : ('0' : Char).toNat = 48 := rfl
    rw [h0]
    omega
  · split
    · rename_i h
      have h1 : 97 ≤ a.toNat := h.1
      have h2 : a.toNat ≤ 102 := h.2
      have h0 : ('a' : Char).toNat = 97 := rfl
      rw [h0]
      omega
    · split
      · rename_i h
        have h1 : 65 ≤ a.toNat := h.1
        have h2 : a.toNat ≤ 70 := h.2
        have h0 : ('A' : Char).toNat = 65 := rfl
        rw [h0]
        omega
      · omega

lemma formDecode_lt256 {l : List Char} (h : ∀ c ∈ l, c.toNat < 256) :
    ∀ c ∈ formDecode l, c.toNat < 256 := by
  induction l using formDecode.induct with
  | case1 =>
    intro c hc
    cases hc
  | case2 a b rest hhex ih =>
    intro c hc
    rw [formDecode_pct _ _ _ hhex] at hc
    rcases List.mem_cons.mp hc with rfl | hm
    · have hv : hexVal a * 16 + hexVal b < 256 := by
        have := hexVal_lt16 a
        have := hexVal_lt16 b
        omega
      rw [toNat_ofNat_valid _ (by omega)]
      exact hv
    · exact ih (fun x hx => h x (by simp [hx])) c hm
  | case3 a b rest hhex ih =>
    intro c hc
    rw [formDecode.eq_def] at hc
    simp only [hhex] at hc
    rcases List.mem_cons.mp hc with rfl | hm
    · decide
    · exact ih (fun x hx => h x (List.mem_cons_of_mem '%' hx)) c hm
  | case4 rest ih =>
    intro c hc
    rw [formDecode] at hc
    rcases List.mem_cons.mp hc with rfl | hm
    · decide
    · exact ih (fun x hx => h x (by simp [hx])) c hm
  | case5 x rest h1 h2 ih =>
    intro c hc
    have heq : formDecode (x :: rest) = x :: formDecode rest := by
      by_cases hx : x = '%'
      · subst hx
        cases rest with
        | nil => rfl
        | cons a rest' =>
          cases rest' with
          | nil => rfl
          | cons b rest2 => exact (h1 a b rest2 rfl rfl).elim
      · exact formDecode_cons_other hx h2
    rw [heq] at hc
    rcases List.mem_cons.mp hc with rfl | hm
    · exact h c (List.mem_cons_self c rest)
    · exact ih (fun y hy => h y (List.mem_cons_of_mem x hy)) c hm

lemma splitFirst_reconstruct (c : Char) (l : List Char) :
    l = (splitFirst c l).1 ++
      (match (splitFirst c l).2 with | none => [] | some r => c :: r) := by
  induction l with
  | nil => rfl
  | cons x xs ih =>
    by_cases hx : (x == c) = true
    · simp only [splitFirst, if_pos hx]
      rw [beq_iff_eq] at hx
      subst hx
      rfl
    · rcases hsp : splitFirst c xs with ⟨b, a⟩
      simp only [splitFirst, if_neg hx, hsp]
      rw [hsp] at ih
      dsimp only at ih ⊢
      rw [List.cons_append]
      exact congrArg (x :: ·) ih

end Gateway
namespace Gateway

lemma formEncode_not_amp (l : List Char) : ('&' : Char) ∉ formEncode l := by
  intro hm
  exact absurd rfl (formEncode_mem '&' hm).2.1

lemma formEncode_not_eq (l : List Char) : ('=' : Char) ∉ formEncode l := by
  intro hm
  exact absurd rfl (formEncode_mem '=' hm).2.2

lemma serializePair_no_amp (p : List Char × List Char) :
    ('&' : Char) ∉ serializePair p := by
  intro hm
  unfold serializePair at hm
  rcases List.mem_append.mp hm with hm | hm
  · exact formEncode_not_amp _ hm
  · rcases List.mem_cons.mp hm with hh | hm'
    · exact absurd hh (by decide)
    · exact formEncode_not_amp _ hm'

lemma serializePair_ne_nil (p : List Char × List Char) : serializePair p ≠ [] := by
  unfold serializePair
  cases hf : formEncode p.1 with
  | nil => simp
  | cons a as => simp

lemma parseQuery_serializePair (p : List Char × List Char)
    (h1 : ∀ c ∈ p.1, c.toNat < 256) (h2 : ∀ c ∈ p.2, c.toNat < 256) :
    (if (serializePair p).isEmpty then none
     else
       let (n, vOpt) := splitFirst '=' (serializePair p)
       some (formDecode n, formDecode (vOpt.getD []))) = some p := by
  have hne : (serializePair p).isEmpty = false := by
    cases hf : serializePair p with
    | nil => exact absurd hf (serializePair_ne_nil p)
    | cons a as => rfl
  rw [if_neg (by rw [hne]; exact Bool.false_ne_true)]
  have hsp : splitFirst '=' (serializePair p) =
      (formEncode p.1, some (formEncode p.2)) :=
    splitFirst_append _ (formEncode_not_eq p.1)
  rw [hsp]
  dsimp only [Option.getD]
  rw [formDecode_formEncode h1, formDecode_formEncode h2]

lemma parseQuery_serializeQuery (P : List (List Char × List Char))
    (h : ∀ pr ∈ P, (∀ c ∈ pr.1, c.toNat < 256) ∧ (∀ c ∈ pr.2, c.toNat < 256)) :
    parseQuery (serializeQuery P) = P := by
  induction P with
  | nil => rfl
  | cons p rest ih =>
    obtain ⟨hp1, hp2⟩ := h p (List.mem_cons_self p rest)
    cases rest with
    | nil =>
      unfold parseQuery
      rw [show serializeQuery [p] = serializePair p from rfl,
        splitOnCh_not_mem (serializePair_no_amp p), List.filterMap_cons,
        List.filterMap_nil]
      have := parseQuery_serializePair p hp1 hp2
      dsimp only at this ⊢
      rw [this]
    | cons q rest' =>
      unfold parseQuery
      rw [show serializeQuery (p :: q :: rest') =
          serializePair p ++ '&' :: serializeQuery (q :: rest') from rfl,
        splitOnCh_append _ (serializePair_no_amp p), List.filterMap_cons]
      have := parseQuery_serializePair p hp1 hp2
      dsimp only at this ⊢
      rw [this]
      have ihr := ih (fun pr hpr => h pr (List.mem_cons_of_mem p hpr))
      unfold parseQuery at ihr
      rw [ihr]

lemma find?_setPairs (P : List (List Char × List Char)) (n v : List Char) :
    (setPairs P n v).find? (fun pr => pr.1 == n) = some (n, v) := by
  induction P with
  | nil => simp [setPairs, List.find?]
  | cons p rest ih =>
    rw [setPairs]
    split
    · rw [List.find?_cons]
      simp
    · rename_i hp
      rw [List.find?_cons]
      rw [bool_eq_false hp]
      exact ih

end Gateway
namespace Gateway

lemma setPairs_idem (P : List (List Char × List Char)) (n v : List Char) :
    setPairs (setPairs P n v) n v = setPairs P n v := by
  induction P with
  | nil => simp [setPairs]
  | cons p rest ih =>
    rw [setPairs]
    split
    · rw [setPairs, if_pos (by simp)]
      congr 1
      rw [List.filter_filter]
      apply List.filter_congr
      intro a _
      rw [Bool.and_self]
    · rename_i hp
      rw [setPairs, if_neg hp, ih]

lemma setPairs_ne_nil (P : List (List Char × List Char)) (n v : List Char) :
    setPairs P n v ≠ [] := by
  cases P with
  | nil => simp [setPairs]
  | cons p rest =>
    rw [setPairs]
    split <;> simp

lemma serializePair_mem (p : List Char × List Char) :
    ∀ c ∈ serializePair p, queryCharOk c = true := by
  intro c hc
  unfold serializePair at hc
  rcases List.mem_append.mp hc with hm | hm
  · exact (formEncode_mem c hm).1
  · rcases List.mem_cons.mp hm with rfl | hm'
    · decide
    · exact (formEncode_mem c hm').1

lemma serializeQuery_mem (P : List (List Char × List Char)) :
    ∀ c ∈ serializeQuery P, queryCharOk c = true := by
  induction P with
  | nil => intro c hc; cases hc
  | cons p rest ih =>
    intro c hc
    cases rest with
    | nil => exact serializePair_mem p c hc
    | cons q rest' =>
      rw [show serializeQuery (p :: q :: rest') =
        serializePair p ++ '&' :: serializeQuery (q :: rest') from rfl] at hc
      rcases List.mem_append.mp hc with hm | hm
      · exact serializePair_mem p c hm
      · rcases List.mem_cons.mp hm with rfl | hm'
        · decide
        · exact ih c hm'

lemma serializeQuery_ne_nil (P : List (List Char × List Char)) (h : P ≠ []) :
    serializeQuery P ≠ [] := by
  cases P with
  | nil => exact absurd rfl h
  | cons p rest =>
    cases rest with
    | nil => exact serializePair_ne_nil p
    | cons q rest' =>
      rw [show serializeQuery (p :: q :: rest') =
        serializePair p ++ '&' :: serializeQuery (q :: rest') from rfl]
      intro hc
      rw [List.append_eq_nil] at hc
      exact absurd hc.1 (serializePair_ne_nil p)

lemma splitFirst_fst_subset (c : Char) (l : List Char) :
    ∀ x ∈ (splitFirst c l).1, x ∈ l := by
  intro x hx
  have hrec := (splitFirst_reconstruct c l).symm
  exact hrec ▸ List.mem_append.mpr (Or.inl hx)

lemma splitFirst_snd_subset {c : Char} {l r : List Char}
    (h : (splitFirst c l).2 = some r) : ∀ x ∈ r, x ∈ l := by
  intro x hx
  have hrec := (splitFirst_reconstruct c l).symm
  have hm : x ∈ (splitFirst c l).1 ++
      (match (splitFirst c l).2 with | none => [] | some s => c :: s) := by
    rw [h]
    exact List.mem_append.mpr (Or.inr (List.mem_cons_of_mem c hx))
  exact hrec ▸ hm

lemma parseQuery_lt256 {q : List Char} (h : ∀ c ∈ q, c.toNat < 256) :
    ∀ pr ∈ parseQuery q, (∀ c ∈ pr.1, c.toNat < 256) ∧ (∀ c ∈ pr.2, c.toNat < 256) := by
  intro pr hpr
  unfold parseQuery at hpr
  rw [List.mem_filterMap] at hpr
  obtain ⟨seg, hseg, hf⟩ := hpr
  have hseg256 : ∀ c ∈ seg, c.toNat < 256 :=
    fun c hc => h c (mem_of_mem_splitOnCh seg hseg hc)
  split at hf
  · cases hf
  · rcases hsp : splitFirst '=' seg with ⟨nn, vOpt⟩
    rw [hsp] at hf
    dsimp only at hf
    rw [Option.some.injEq] at hf
    subst hf
    constructor
    · exact formDecode_lt256 (fun c hc => hseg256 c
        (splitFirst_fst_subset '=' seg c (by rw [hsp]; exact hc)))
    · cases hvo : vOpt with
      | none =>
        intro c hc
        simp [Option.getD, formDecode] at hc
      | some r =>
        subst hvo
        exact formDecode_lt256 (fun c hc => hseg256 c
          (splitFirst_snd_subset (by rw [hsp]; rfl) c hc))

lemma setPairs_lt256 {P : List (List Char × List Char)} {n v : List Char}
    (hP : ∀ pr ∈ P, (∀ c ∈ pr.1, c.toNat < 256) ∧ (∀ c ∈ pr.2, c.toNat < 256))
    (hn : ∀ c ∈ n, c.toNat < 256) (hv : ∀ c ∈ v, c.toNat < 256) :
    ∀ pr ∈ setPairs P n v, (∀ c ∈ pr.1, c.toNat < 256) ∧ (∀ c ∈ pr.2, c.toNat < 256) := by
  induction P with
  | nil =>
    intro pr hpr
    rw [setPairs] at hpr
    rcases List.mem_cons.mp hpr with rfl | hm
    · exact ⟨hn, hv⟩
    · cases hm
  | cons p rest ih =>
    intro pr hpr
    rw [setPairs] at hpr
    split at hpr
    · rcases List.mem_cons.mp hpr with rfl | hm
      · exact ⟨hn, hv⟩
      · exact hP pr (List.mem_cons_of_mem p (List.mem_of_mem_filter hm))
    · rcases List.mem_cons.mp hpr with rfl | hm
      · exact hP pr (List.mem_cons_self pr rest)
      · exact ih (fun x hx => hP x (List.mem_cons_of_mem p hx)) pr hm

end Gateway
namespace Gateway

lemma isDigitCh_lt256 {c : Char} (h : isDigitCh c = true) : c.toNat < 256 :=
  queryCharOk_lt256 (queryCharOk_of_compCharOk (compCharOk_of_isDigitCh h))

lemma hostCharOk_lt256 {c : Char} (h : hostCharOk c = true) : c.toNat < 256 :=
  queryCharOk_lt256 (queryCharOk_of_compCharOk (compCharOk_of_hostCharOk h))

lemma urlWFB_spec (u : UrlModel) (h : urlWFB u = true) :
    (u.scheme = "http" ∨ u.scheme = "https") ∧
    (u.host.data ≠ [] ∧ u.host.data.all hostCharOk = true) ∧
    (∀ p, u.port = some p → portOkB u.scheme p.data = true) ∧
    pathOkB u.pathname.data = true ∧
    searchOkB u.search.data = true ∧ hashOkB u.hash.data = true := by
  simp only [urlWFB, Bool.and_eq_true] at h
  obtain ⟨⟨⟨⟨⟨h1, h2⟩, h3⟩, h4⟩, h5⟩, h6⟩ := h
  refine ⟨?_, ⟨?_, ?_⟩, ?_, h4, h5, h6⟩
  · rw [Bool.or_eq_true, beq_iff_eq, beq_iff_eq] at h1
    exact h1
  · rcases h2 with ⟨h2a, _⟩
    intro hc
    rw [hc] at h2a
    exact absurd h2a (by decide)
  · exact h2.2
  · intro p hp
    cases hport : u.port with
    | none => rw [hport] at hp; cases hp
    | some p' =>
      rw [hport] at hp h3
      rw [Option.some.injEq] at hp
      subst hp
      exact h3

lemma searchOkB_lt256 {s : List Char} (h : searchOkB s = true) :
    ∀ c ∈ s, c.toNat < 256 := by
  rcases searchOkB_cases h with rfl | ⟨q, rfl, hok⟩
  · intro c hc; cases hc
  · rw [Bool.and_eq_true] at hok
    intro c hc
    rcases List.mem_cons.mp hc with rfl | hm
    · decide
    · exact queryCharOk_lt256 (List.all_eq_true.mp hok.2 c hm)

lemma hashOkB_lt256 {s : List Char} (h : hashOkB s = true) :
    ∀ c ∈ s, c.toNat < 256 := by
  rcases hashOkB_cases h with rfl | ⟨q, rfl, hok⟩
  · intro c hc; cases hc
  · rw [Bool.and_eq_true] at hok
    intro c hc
    rcases List.mem_cons.mp hc with rfl | hm
    · decide
    · exact queryCharOk_lt256 (List.all_eq_true.mp hok.2 c hm)

lemma pathOkB_lt256 {s : List Char} (h : pathOkB s = true) :
    ∀ c ∈ s, c.toNat < 256 := by
  rw [pathOkB, Bool.and_eq_true, Bool.and_eq_true] at h
  intro c hc
  exact queryCharOk_lt256 (queryCharOk_of_compCharOk (List.all_eq_true.mp h.1.2 c hc))

lemma serializeUrl_data (u : UrlModel) :
    (serializeUrl u).data = u.scheme.data ++ ([':', '/', '/'] ++ (u.host.data ++
      ((match u.port with | none => [] | some p => ':' :: p.data) ++
       (u.pathname.data ++ (u.search.data ++ u.hash.data))))) := by
  cases hp : u.port with
  | none => simp [serializeUrl, String.data_append, hp]
  | some p => simp [serializeUrl, String.data_append, hp]

lemma serializeUrl_lt256 {u : UrlModel}
    (hsch : u.scheme = "http" ∨ u.scheme = "https")
    (hhost : ∀ c ∈ u.host.data, c.toNat < 256)
    (hport : ∀ p, u.port = some p → ∀ c ∈ p.data, c.toNat < 256)
    (hpath : ∀ c ∈ u.pathname.data, c.toNat < 256)
    (hsearch : ∀ c ∈ u.search.data, c.toNat < 256)
    (hhash : ∀ c ∈ u.hash.data, c.toNat < 256) :
    ∀ c ∈ (serializeUrl u).data, c.toNat < 256 := by
  intro c hc
  rw [serializeUrl_data] at hc
  rcases List.mem_append.mp hc with hm | hm
  · rcases hsch with hse | hse <;>
    · rw [hse] at hm
      simp at hm
      rcases hm with rfl | rfl | rfl | rfl <;> decide
  · rcases List.mem_append.mp hm with hm | hm
    · simp at hm
      rcases hm with rfl | rfl | rfl <;> decide
    · rcases List.mem_append.mp hm with hm | hm
      · exact hhost c hm
      · rcases List.mem_append.mp hm with hm | hm
        · cases hpo : u.port with
          | none => rw [hpo] at hm; cases hm
          | some p =>
            rw [hpo] at hm
            rcases List.mem_cons.mp hm with rfl | hm'
            · decide
            · exact hport p hpo c hm'
        · rcases List.mem_append.mp hm with hm | hm
          · exact hpath c hm
          · rcases List.mem_append.mp hm with hm | hm
            · exact hsearch c hm
            · exact hhash c hm

end Gateway
namespace Gateway

lemma querySet_data (s n v : String) :
    (querySet s n v).data = '?' :: serializeQuery
      (setPairs (parseQuery (match s.data with | '?' :: q => q | _ => [])) n.data v.data) :=
  rfl

lemma matchQ_lt256 {s : String} (hs : ∀ c ∈ s.data, c.toNat < 256) :
    ∀ c ∈ (match s.data with | '?' :: q => q | _ => ([] : List Char)), c.toNat < 256 := by
  split
  · rename_i q heq
    intro c hc
    exact hs c (by rw [heq]; exact List.mem_cons_of_mem '?' hc)
  · intro c hc
    cases hc

lemma queryGet_querySet (s n v : String)
    (hs : ∀ c ∈ s.data, c.toNat < 256)
    (hn : ∀ c ∈ n.data, c.toNat < 256)
    (hv : ∀ c ∈ v.data, c.toNat < 256) :
    queryGet (querySet s n v) n = some v := by
  have hP := setPairs_lt256 (parseQuery_lt256 (matchQ_lt256 hs)) hn hv
  rw [show queryGet (querySet s n v) n =
      ((parseQuery (serializeQuery (setPairs
          (parseQuery (match s.data with | '?' :: q => q | _ => []))
          n.data v.data))).find? fun p => p.1 == n.data).map
        (fun p => (⟨p.2⟩ : String)) from rfl]
  rw [parseQuery_serializeQuery _ hP, find?_setPairs]
  rfl

lemma querySet_stable (s n v : String)
    (hs : ∀ c ∈ s.data, c.toNat < 256)
    (hn : ∀ c ∈ n.data, c.toNat < 256)
    (hv : ∀ c ∈ v.data, c.toNat < 256) :
    querySet (querySet s n v) n v = querySet s n v := by
  have hP := setPairs_lt256 (parseQuery_lt256 (matchQ_lt256 hs)) hn hv
  rw [show querySet (querySet s n v) n v =
      ⟨'?' :: serializeQuery (setPairs (parseQuery (serializeQuery (setPairs
          (parseQuery (match s.data with | '?' :: q => q | _ => []))
          n.data v.data))) n.data v.data)⟩ from rfl]
  rw [parseQuery_serializeQuery _ hP, setPairs_idem]
  rfl

lemma querySet_searchOk (s n v : String) :
    searchOkB (querySet s n v).data = true := by
  rw [querySet_data]
  have hne := serializeQuery_ne_nil
    (setPairs (parseQuery (match s.data with | '?' :: q => q | _ => [])) n.data v.data)
    (setPairs_ne_nil _ _ _)
  simp only [searchOkB, List.isEmpty_cons, List.head?_cons, List.tail_cons,
    beq_self_eq_true, Bool.true_and, Bool.false_or]
  rw [Bool.and_eq_true]
  constructor
  · cases hq : serializeQuery
        (setPairs (parseQuery (match s.data with | '?' :: q => q | _ => [])) n.data v.data) with
    | nil => exact absurd hq hne
    | cons a as => rfl
  · rw [List.all_eq_true]
    intro c hc
    exact serializeQuery_mem _ c hc

lemma querySet_lt256 (s n v : String) :
    ∀ c ∈ (querySet s n v).data, c.toNat < 256 := by
  intro c hc
  rw [querySet_data] at hc
  rcases List.mem_cons.mp hc with rfl | hm
  · decide
  · exact queryCharOk_lt256 (serializeQuery_mem _ c hm)

end Gateway
namespace Gateway

lemma urlWFB_intro {u : UrlModel}
    (h1 : u.scheme = "http" ∨ u.scheme = "https")
    (h2 : u.host.data ≠ [] ∧ u.host.data.all hostCharOk = true)
    (h3 : ∀ p, u.port = some p → portOkB u.scheme p.data = true)
    (h4 : pathOkB u.pathname.data = true)
    (h5 : searchOkB u.search.data = true) (h6 : hashOkB u.hash.data = true) :
    urlWFB u = true := by
  simp only [urlWFB, Bool.and_eq_true]
  refine ⟨⟨⟨⟨⟨?_, ?_⟩, ?_⟩, h4⟩, h5⟩, h6⟩
  · rw [Bool.or_eq_true, beq_iff_eq, beq_iff_eq]
    exact h1
  · refine ⟨?_, h2.2⟩
    cases hh : u.host.data with
    | nil => exact absurd hh h2.1
    | cons a as => rfl
  · cases hp : u.port with
    | none => trivial
    | some p => exact h3 p hp

lemma setPort_fields (u : UrlModel) (p : String) :
    (setPort u p).scheme = u.scheme ∧ (setPort u p).host = u.host ∧
    (setPort u p).pathname = u.pathname ∧ (setPort u p).search = u.search ∧
    (setPort u p).hash = u.hash := by
  unfold setPort
  split
  · split <;> exact ⟨rfl, rfl, rfl, rfl, rfl⟩
  · exact ⟨rfl, rfl, rfl, rfl, rfl⟩

lemma setPort_wf {u : UrlModel} {p : String} (hu : urlWFB u = true)
    (hp : p.data ≠ [] ∧ p.data.all isDigitCh = true ∧ p.data.head? ≠ some '0') :
    urlWFB (setPort u p) = true := by
  obtain ⟨hs, hh, hpo, hpa, hse, hha⟩ := urlWFB_spec u hu
  have hcond : (!p.data.isEmpty && p.data.all isDigitCh) = true := by
    rw [Bool.and_eq_true]
    refine ⟨?_, hp.2.1⟩
    cases hpd : p.data with
    | nil => exact absurd hpd hp.1
    | cons a as => rfl
  unfold setPort
  rw [if_pos hcond]
  split
  · exact urlWFB_intro hs hh (fun q hq => by cases hq) hpa hse hha
  · rename_i hdef
    refine urlWFB_intro hs hh ?_ hpa hse hha
    intro q hq
    rw [Option.some.injEq] at hq
    subst hq
    rw [portOkB, Bool.and_eq_true, Bool.and_eq_true, Bool.and_eq_true]
    refine ⟨⟨⟨?_, hp.2.1⟩, ?_⟩, ?_⟩
    · cases hpd : p.data with
      | nil => exact absurd hpd hp.1
      | cons a as => rfl
    · have hv : (p.data.head? == some '0') = false := by
        cases hv0 : (p.data.head? == some '0')
        · rfl
        · rw [beq_iff_eq] at hv0
          exact absurd hv0 hp.2.2
      rw [hv]
      rfl
    · show (!((⟨p.data⟩ : String) == defaultPort u.scheme)) = true
      rw [show (⟨p.data⟩ : String) = p from rfl, bool_eq_false hdef]
      rfl

lemma incomingPort_canonical {ctx : RewriteCtx} {p : String}
    (hctx : ctxWF ctx = true) (h : incomingPort ctx = some p) :
    p.data ≠ [] ∧ p.data.all isDigitCh = true ∧ p.data.head? ≠ some '0' := by
  simp only [ctxWF, Bool.and_eq_true] at hctx
  obtain ⟨⟨⟨hhp, _⟩, _⟩, hsock⟩ := hctx
  have hsockT : ∀ q, ctx.socketLocalPort = some q →
      q.data ≠ [] ∧ q.data.all isDigitCh = true ∧ q.data.head? ≠ some '0' := by
    intro q hq
    rw [hq] at hsock
    dsimp only at hsock
    rw [Bool.and_eq_true, Bool.and_eq_true] at hsock
    obtain ⟨⟨hq1, hq2⟩, hq3⟩ := hsock
    refine ⟨?_, hq2, ?_⟩
    · intro hc
      rw [hc] at hq1
      exact absurd hq1 (by decide)
    · intro hc
      rw [hc] at hq3
      exact absurd hq3 (by decide)
  unfold incomingPort at h
  split at h
  · rename_i h0 pp hparts
    split at h
    · exact hsockT p h
    · rename_i hpp
      rw [Option.some.injEq] at h
      subst h
      rw [hparts] at hhp
      simp only [Bool.and_eq_true] at hhp
      obtain ⟨_, ⟨⟨hp1, hp2⟩, hp3⟩, _⟩ := hhp
      refine ⟨?_, hp2, ?_⟩
      · intro hc
        rw [show (⟨pp⟩ : String).data = pp from rfl] at hc
        rw [hc] at hp1
        exact absurd hp1 (by decide)
      · intro hc
        rw [show (⟨pp⟩ : String).data = pp from rfl] at hc
        rw [hc] at hp3
        exact absurd hp3 (by decide)
  · exact hsockT p h

end Gateway
namespace Gateway

lemma urlWFB_serialize_lt256 {u : UrlModel} (h : urlWFB u = true) :
    ∀ c ∈ (serializeUrl u).data, c.toNat < 256 := by
  obtain ⟨hs, hh, hpo, hpa, hse, hha⟩ := urlWFB_spec u h
  refine serializeUrl_lt256 hs
    (fun c hc => hostCharOk_lt256 (List.all_eq_true.mp hh.2 c hc)) ?_
    (pathOkB_lt256 hpa) (searchOkB_lt256 hse) (hashOkB_lt256 hha)
  intro p hp c hc
  have hpk := hpo p hp
  rw [portOkB, Bool.and_eq_true, Bool.and_eq_true, Bool.and_eq_true] at hpk
  exact isDigitCh_lt256 (List.all_eq_true.mp hpk.1.1.2 c hc)

lemma setPort_setPort (u : UrlModel) (p : String) :
    setPort (setPort u p) p = setPort u p := by
  by_cases hv : (!p.data.isEmpty && p.data.all isDigitCh) = true
  · by_cases hdef : (p == defaultPort u.scheme) = true
    · have h1 : setPort u p = { u with port := none } := by
        unfold setPort
        rw [if_pos hv, if_pos hdef]
      rw [h1]
      unfold setPort
      rw [if_pos hv, if_pos (show
        (p == defaultPort ({ u with port := none } : UrlModel).scheme) = true from hdef)]
    · have h1 : setPort u p = { u with port := some p } := by
        unfold setPort
        rw [if_pos hv, if_neg hdef]
      rw [h1]
      unfold setPort
      rw [if_pos hv, if_neg (show ¬
        (p == defaultPort ({ u with port := some p } : UrlModel).scheme) = true from hdef)]
  · have h1 : setPort u p = u := by
      unfold setPort
      rw [if_neg hv]
    rw [h1]
    exact h1

lemma injectSearch_cases (ctx : RewriteCtx) (s : String) :
    injectSearch ctx s = s ∨
    ∃ cb cbu p, queryGet s "callback" = some cb ∧ parseUrlAbs cb = some cbu ∧
      (cbu.host == publicHost ctx && cbu.port == none) = true ∧
      incomingPort ctx = some p ∧
      injectSearch ctx s = querySet s "callback" (serializeUrl (setPort cbu p)) := by
  unfold injectSearch
  split
  · exact Or.inl rfl
  · rename_i cb hcb
    split
    · exact Or.inl rfl
    · rename_i cbu hcbu
      split
      · rename_i hcond
        split
        · exact Or.inl rfl
        · rename_i p hp
          exact Or.inr ⟨cb, cbu, p, hcb, hcbu, hcond, hp, rfl⟩
      · exact Or.inl rfl

lemma injectSearch_searchOk {ctx : RewriteCtx} {s : String}
    (hs : searchOkB s.data = true) : searchOkB (injectSearch ctx s).data = true := by
  rcases injectSearch_cases ctx s with heq | ⟨cb, cbu, p, _, _, _, _, heq⟩
  · rw [heq]
    exact hs
  · rw [heq]
    exact querySet_searchOk _ _ _

lemma injectSearch_lt256 {ctx : RewriteCtx} {s : String}
    (hs : ∀ c ∈ s.data, c.toNat < 256) :
    ∀ c ∈ (injectSearch ctx s).data, c.toNat < 256 := by
  rcases injectSearch_cases ctx s with heq | ⟨cb, cbu, p, _, _, _, _, heq⟩
  · rw [heq]
    exact hs
  · rw [heq]
    exact querySet_lt256 _ _ _

end Gateway
namespace Gateway

lemma injectSearch_idem (ctx : RewriteCtx) (s : String)
    (hctx : ctxWF ctx = true) (hs : ∀ c ∈ s.data, c.toNat < 256) :
    injectSearch ctx (injectSearch ctx s) = injectSearch ctx s := by
  rcases injectSearch_cases ctx s with heq | ⟨cb, cbu, p, hcb, hcbu, hcond, hip, heq⟩
  · rw [heq]
    exact heq
  · rw [heq]
    have hwf_cbu := parseUrlAbs_wf hcbu
    have hpc := incomingPort_canonical hctx hip
    have hwf' := setPort_wf hwf_cbu hpc
    have hfields := setPort_fields cbu p
    have hv256 := urlWFB_serialize_lt256 hwf'
    have hn256 : ∀ c ∈ ("callback" : String).data, c.toNat < 256 := by decide
    have hqg := queryGet_querySet s "callback" (serializeUrl (setPort cbu p)) hs hn256 hv256
    unfold injectSearch
    rw [hqg]
    dsimp only
    rw [parse_serialize _ hwf']
    dsimp only
    rw [hfields.2.1]
    cases hport : (setPort cbu p).port with
    | none =>
      have hcond1 : (cbu.host == publicHost ctx) = true := by
        rw [Bool.and_eq_true] at hcond
        exact hcond.1
      rw [if_pos (show (cbu.host == publicHost ctx &&
          (none : Option String) == none) = true by
        rw [Bool.and_eq_true]
        exact ⟨hcond1, rfl⟩)]
      rw [hip]
      dsimp only
      rw [setPort_setPort]
      exact querySet_stable s "callback" _ hs hn256 hv256
    | some q =>
      rw [if_neg (show ¬ (cbu.host == publicHost ctx &&
          (some q : Option String) == none) = true by simp)]

end Gateway
namespace Gateway

def pubPortOpt (ctx : RewriteCtx) : Option String :=
  match splitOnCh ':' ctx.publicHostFull.data with
  | [_, p] => some ⟨p⟩
  | _ => none

lemma splitFirst_fst_not_mem (c : Char) (l : List Char) : c ∉ (splitFirst c l).1 := by
  induction l with
  | nil => simp [splitFirst]
  | cons x xs ih =>
    by_cases hx : (x == c) = true
    · rw [beq_iff_eq] at hx
      subst hx
      simp [splitFirst]
    · rcases hsp : splitFirst c xs with ⟨b, a⟩
      rw [hsp] at ih
      simp only [splitFirst, if_neg hx, hsp]
      intro hm
      rcases List.mem_cons.mp hm with heq | hm'
      · rw [beq_iff_eq] at hx
        exact hx heq.symm
      · exact ih hm'

lemma splitOnCh_eq_splitFirst (c : Char) (l : List Char) :
    splitOnCh c l = (splitFirst c l).1 ::
      (match (splitFirst c l).2 with | none => [] | some r => splitOnCh c r) := by
  induction l with
  | nil => rfl
  | cons x xs ih =>
    by_cases hx : (x == c) = true
    · rw [beq_iff_eq] at hx
      subst hx
      simp [splitOnCh, splitFirst]
    · rcases hsp : splitFirst c xs with ⟨b, a⟩
      rw [hsp] at ih
      dsimp only at ih
      simp only [splitOnCh, splitFirst, if_neg hx, hsp]
      rw [ih]

lemma splitOnCh_one {c : Char} {l h : List Char} (hs : splitOnCh c l = [h]) :
    l = h ∧ c ∉ h := by
  rw [splitOnCh_eq_splitFirst] at hs
  rw [List.cons.injEq] at hs
  obtain ⟨h1, h2⟩ := hs
  cases hsnd : (splitFirst c l).2 with
  | some r =>
    rw [hsnd] at h2
    exact absurd h2 (splitOnCh_ne_nil c r)
  | none =>
    have hrec := splitFirst_reconstruct c l
    rw [hsnd] at hrec
    rw [List.append_nil] at hrec
    exact ⟨hrec.trans h1, h1 ▸ splitFirst_fst_not_mem c l⟩

lemma splitOnCh_two {c : Char} {l h p : List Char} (hs : splitOnCh c l = [h, p]) :
    l = h ++ c :: p ∧ c ∉ h ∧ c ∉ p := by
  rw [splitOnCh_eq_splitFirst] at hs
  rw [List.cons.injEq] at hs
  obtain ⟨h1, h2⟩ := hs
  cases hsnd : (splitFirst c l).2 with
  | none =>
    rw [hsnd] at h2
    exact absurd h2.symm (by simp)
  | some r =>
    rw [hsnd] at h2
    obtain ⟨hr, hrp⟩ := splitOnCh_one h2
    have hrec := splitFirst_reconstruct c l
    rw [hsnd] at hrec
    rw [h1, hr] at hrec
    exact ⟨hrec, h1 ▸ splitFirst_fst_not_mem c l, hrp⟩

lemma parseUrl_of_abs {ctx : RewriteCtx} {s : String} {u : UrlModel}
    (h : parseUrlAbs s = some u) : parseUrl ctx s = some u := by
  unfold parseUrl
  rw [h]

lemma ensureCallbackPort_eq (ctx : RewriteCtx) (u : UrlModel) :
    ensureCallbackPort ctx u = { u with search := injectSearch ctx u.search } := rfl

lemma ctxWF_decomp {ctx : RewriteCtx} (hctx : ctxWF ctx = true) :
    ∃ h popt,
      ctx.publicHostFull.data = h ++ (match popt with | none => [] | some p => ':' :: p) ∧
      (publicHost ctx).data = h ∧ pubPortOpt ctx = popt.map (fun p => (⟨p⟩ : String)) ∧
      h ≠ [] ∧ h.all hostCharOk = true ∧
      (∀ p, popt = some p →
        p ≠ [] ∧ p.all isDigitCh = true ∧ p.head? ≠ some '0' ∧ (⟨p⟩ : String) ≠ "443") := by
  simp only [ctxWF, Bool.and_eq_true] at hctx
  obtain ⟨⟨⟨hhp, _⟩, _⟩, _⟩ := hctx
  cases hsplit : splitOnCh ':' ctx.publicHostFull.data with
  | nil => exact absurd hsplit (splitOnCh_ne_nil _ _)
  | cons h0 rest =>
    have hfst : (splitFirst ':' ctx.publicHostFull.data).1 = h0 := by
      have hsf := splitOnCh_eq_splitFirst ':' ctx.publicHostFull.data
      rw [hsplit] at hsf
      rw [List.cons.injEq] at hsf
      exact hsf.1.symm
    have hpub : (publicHost ctx).data = h0 := by
      show (splitFirst ':' ctx.publicHostFull.data).1 = h0
      exact hfst
    cases rest with
    | nil =>
      obtain ⟨hl, _⟩ := splitOnCh_one hsplit
      rw [hsplit] at hhp
      simp only [Bool.and_eq_true] at hhp
      obtain ⟨hh1, hh2⟩ := hhp
      refine ⟨h0, none, ?_, hpub, ?_, ?_, hh2, fun p hp => by cases hp⟩
      · rw [hl]
        simp
      · show (match splitOnCh ':' ctx.publicHostFull.data with
          | [_, p] => some (⟨p⟩ : String)
          | _ => none) = none
        rw [hsplit]
      · intro hc
        rw [hc] at hh1
        exact absurd hh1 (by decide)
    | cons p0 rest' =>
      cases rest' with
      | nil =>
        obtain ⟨hl, _, _⟩ := splitOnCh_two hsplit
        rw [hsplit] at hhp
        simp only [Bool.and_eq_true] at hhp
        obtain ⟨⟨hh1, hh2⟩, ⟨⟨hp1, hp2⟩, hp3⟩, hp4⟩ := hhp
        refine ⟨h0, some p0, ?_, hpub, ?_, ?_, hh2, ?_⟩
        · rw [hl]
        · show (match splitOnCh ':' ctx.publicHostFull.data with
            | [_, p] => some (⟨p⟩ : String)
            | _ => none) = some ⟨p0⟩
          rw [hsplit]
        · intro hc
          rw [hc] at hh1
          exact absurd hh1 (by decide)
        · intro p hp
          rw [Option.some.injEq] at hp
          subst hp
          refine ⟨?_, hp2, ?_, ?_⟩
          · intro hc
            rw [hc] at hp1
            exact absurd hp1 (by decide)
          · intro hc
            rw [hc] at hp3
            exact absurd hp3 (by decide)
          · intro hc
            rw [hc] at hp4
            exact absurd hp4 (by decide)
      | cons q rest2 =>
        rw [hsplit] at hhp
        exact absurd hhp (by simp)

end Gateway
namespace Gateway

lemma parse_internal_out {ctx : RewriteCtx} (hctx : ctxWF ctx = true)
    (upath usearch uhash : String)
    (hpa : pathOkB upath.data = true)
    (hse : searchOkB usearch.data = true) (hha : hashOkB uhash.data = true) :
    parseUrlAbs ("https://" ++ ctx.publicHostFull ++ upath ++ usearch ++ uhash) =
      some ⟨"https", publicHost ctx, pubPortOpt ctx, upath, usearch, uhash⟩ := by
  obtain ⟨h, popt, hdata, hpub, hpopt, hne, hall, hport⟩ := ctxWF_decomp hctx
  have hpubS : publicHost ctx = ⟨h⟩ := by
    rw [← hpub]
  rw [hpubS, hpopt]
  have hhostcomp : h.all compCharOk = true := List.all_eq_true.mpr
    (fun c hc => compCharOk_of_hostCharOk (List.all_eq_true.mp hall c hc))
  have hpathall : upath.data.all compCharOk = true := by
    rw [pathOkB, Bool.and_eq_true, Bool.and_eq_true] at hpa
    exact hpa.1.2
  rw [pathOkB, Bool.and_eq_true, Bool.and_eq_true] at hpa
  have hpa' : pathOkB upath.data = true := by
    rw [pathOkB, Bool.and_eq_true, Bool.and_eq_true]
    exact hpa
  cases popt with
  | none =>
    have hauth : parseAuthPath "https" (h ++ upath.data) usearch.data uhash.data
        = some ⟨"https", ⟨h⟩, none, upath, usearch, uhash⟩ :=
      parseAuthPath_assembled "https" h none upath.data usearch.data uhash.data
        ⟨hne, hall⟩ (fun p hp => by cases hp) hpa'
    refine parseUrlAbs_eq _ (['h','t','t','p','s',':','/','/'] ++ (h ++ upath.data))
      usearch.data uhash.data "https" (h ++ upath.data) _ ?_ ?_
      (searchOkB_cases hse) (hashOkB_cases hha) (stripScheme_https _) hauth
    · simp [String.data_append, hdata]
    · have hlit : (['h','t','t','p','s',':','/','/'] : List Char).all compCharOk = true := by
        decide
      simp [List.all_append, hlit, hhostcomp, hpathall]
      all_goals decide
  | some p =>
    obtain ⟨pne, pdig, phead, p443⟩ := hport p rfl
    have hpok : portOkB "https" p = true := by
      rw [portOkB, Bool.and_eq_true, Bool.and_eq_true, Bool.and_eq_true]
      refine ⟨⟨⟨?_, pdig⟩, ?_⟩, ?_⟩
      · cases hpd : p with
        | nil => exact absurd hpd pne
        | cons a as => rfl
      · have h0f : (p.head? == some '0') = false := by
          cases h0 : (p.head? == some '0')
          · rfl
          · rw [beq_iff_eq] at h0
            exact absurd h0 phead
        rw [h0f]
        rfl
      · have h0f : ((⟨p⟩ : String) == defaultPort "https") = false := by
          cases h0 : ((⟨p⟩ : String) == defaultPort "https")
          · rfl
          · rw [beq_iff_eq] at h0
            exact absurd h0 p443
        rw [h0f]
        rfl
    have hauth : parseAuthPath "https" (h ++ (':' :: p ++ upath.data)) usearch.data uhash.data
        = some ⟨"https", ⟨h⟩, some ⟨p⟩, upath, usearch, uhash⟩ :=
      parseAuthPath_assembled "https" h (some p) upath.data usearch.data uhash.data
        ⟨hne, hall⟩
        (fun q hq => by rw [Option.some.injEq] at hq; subst hq; exact hpok) hpa'
    have hpdigcomp : p.all compCharOk = true := List.all_eq_true.mpr
      (fun c hc => compCharOk_of_isDigitCh (List.all_eq_true.mp pdig c hc))
    refine parseUrlAbs_eq _ (['h','t','t','p','s',':','/','/'] ++
        (h ++ (':' :: p ++ upath.data)))
      usearch.data uhash.data "https" (h ++ (':' :: p ++ upath.data)) _ ?_ ?_
      (searchOkB_cases hse) (hashOkB_cases hha) (stripScheme_https _) hauth
    · simp [String.data_append, hdata]
    · have hlit : (['h','t','t','p','s',':','/','/'] : List Char).all compCharOk = true := by
        decide
      simp [List.all_append, List.all_cons, hlit, hhostcomp, hpathall, hpdigcomp]
      all_goals decide

end Gateway
namespace Gateway

lemma internal_out_eq_serialize {ctx : RewriteCtx} (hctx : ctxWF ctx = true)
    (upath usearch uhash : String) :
    "https://" ++ ctx.publicHostFull ++ upath ++ usearch ++ uhash =
      serializeUrl ⟨"https", publicHost ctx, pubPortOpt ctx, upath, usearch, uhash⟩ := by
  obtain ⟨h, popt, hdata, hpub, hpopt, _, _, _⟩ := ctxWF_decomp hctx
  apply String.ext
  rw [serializeUrl_data]
  dsimp only
  rw [hpopt, hpub]
  cases popt with
  | none => simp [String.data_append, hdata]
  | some p => simp [String.data_append, hdata]

end Gateway
namespace Gateway

/-- C4 (amended): for any Location in the modelled URL fragment, under a
canonical request context, the rewrite resolves the header against the
upstream base and then: when the URL host is the upstream host or a
loopback name (`127.0.0.1`, `localhost`, `::1`), the forwarded value is
exactly `https://` + the public Host header + the parsed pathname + the
callback-injected search + the fragment, and it reparses to scheme
`https` with authority exactly the public host and port and with
pathname, search and fragment preserved; for any other host every URL
component is kept except the callback-injected search, but the forwarded
string is the WHATWG re-serialization of the URL, not the original text
(see the counterexample); when no `callback` query parameter is present
the search component is left untouched. -/
theorem location_rewrite_targets (ctx : RewriteCtx) (loc : String) (u : UrlModel)
    (hctx : ctxWF ctx = true) (hp : parseUrl ctx loc = some u) :
    ∃ r, rewriteLocation ctx loc = some r ∧
      (isInternalHost ctx u.host = true →
        r = "https://" ++ ctx.publicHostFull ++ u.pathname ++
          injectSearch ctx u.search ++ u.hash ∧
        parseUrlAbs r = some ⟨"https", publicHost ctx, pubPortOpt ctx,
          u.pathname, injectSearch ctx u.search, u.hash⟩) ∧
      (isInternalHost ctx u.host = false →
        r = serializeUrl { u with search := injectSearch ctx u.search } ∧
        parseUrlAbs r = some { u with search := injectSearch ctx u.search }) ∧
      (queryGet u.search "callback" = none → injectSearch ctx u.search = u.search) := by
  have hu := parseUrl_wf hp
  obtain ⟨hsch, hhost, hport, hpath, hse, hha⟩ := urlWFB_spec u hu
  have hu' : urlWFB { u with search := injectSearch ctx u.search } = true :=
    urlWFB_intro hsch hhost hport hpath (injectSearch_searchOk hse) hha
  unfold rewriteLocation
  rw [hp]
  dsimp only
  by_cases hint : isInternalHost ctx u.host = true
  · rw [if_pos hint]
    refine ⟨_, rfl, fun _ => ⟨rfl, ?_⟩,
      fun hf => absurd (hf ▸ hint) (by decide), ?_⟩
    · exact parse_internal_out hctx u.pathname (injectSearch ctx u.search) u.hash
        hpath (injectSearch_searchOk hse) hha
    · intro hnone
      show injectSearch ctx u.search = u.search
      unfold injectSearch
      rw [hnone]
  · rw [if_neg hint]
    refine ⟨_, rfl, fun ht => absurd ht hint, fun _ => ⟨rfl, ?_⟩, ?_⟩
    · exact parse_serialize _ hu'
    · intro hnone
      show injectSearch ctx u.search = u.search
      unfold injectSearch
      rw [hnone]

/-- C5 (amended): under a canonical request context (lowercase public
host, canonical decimal port different from 443, canonical socket
port), the Location rewrite is idempotent on its own output: whenever
one application of the rewrite produces a header `r`, applying the
rewrite to `r` returns `r` unchanged. Without the canonicity
assumptions this fails (see the counterexample: a `:443` public Host
header is dropped by the second pass). -/
theorem location_rewrite_idem (ctx : RewriteCtx) (loc r : String)
    (hctx : ctxWF ctx = true) (h : rewriteLocation ctx loc = some r) :
    rewriteLocation ctx r = some r := by
  unfold rewriteLocation at h
  cases hp : parseUrl ctx loc with
  | none => rw [hp] at h; cases h
  | some u =>
    rw [hp] at h
    dsimp only at h
    have hu := parseUrl_wf hp
    obtain ⟨hsch, hhost, hport, hpath, hse, hha⟩ := urlWFB_spec u hu
    have hs256 := searchOkB_lt256 hse
    have hidem := injectSearch_idem ctx u.search hctx hs256
    have hu' : urlWFB (ensureCallbackPort ctx u) = true :=
      urlWFB_intro hsch hhost hport hpath (injectSearch_searchOk hse) hha
    have hsearch_eq : injectSearch ctx (ensureCallbackPort ctx u).search =
        (ensureCallbackPort ctx u).search := hidem
    split at h
    · rename_i hint
      rw [Option.some.injEq] at h
      subst h
      have hw := parse_internal_out hctx (ensureCallbackPort ctx u).pathname
        (ensureCallbackPort ctx u).search (ensureCallbackPort ctx u).hash
        hpath (injectSearch_searchOk hse) hha
      unfold rewriteLocation
      rw [parseUrl_of_abs hw]
      dsimp only
      split
      · rw [ensureCallbackPort_eq]
        dsimp only
        rw [hsearch_eq]
      · rw [ensureCallbackPort_eq]
        dsimp only
        rw [hsearch_eq]
        rw [← internal_out_eq_serialize hctx]
    · rename_i hint
      rw [Option.some.injEq] at h
      subst h
      unfold rewriteLocation
      rw [parseUrl_of_abs (parse_serialize _ hu')]
      dsimp only
      rw [show (ensureCallbackPort ctx u).host = u.host from rfl]
      rw [if_neg hint]
      rw [ensureCallbackPort_eq, ensureCallbackPort_eq]
      dsimp only
      rw [hidem]

end Gateway

namespace Gateway

/-- C4 counterexample: an external Location (host neither the upstream
host nor a loopback name, no callback parameter) is claimed to be left
unchanged, but the code forwards `u.toString()`: for the header
`http://example.org` the WHATWG round-trip appends the root path, so the
forwarded value `http://example.org/` differs from the original. -/
theorem location_external_rewrite_cex :
    rewriteLocation ctx₀ "http://example.org" = some "http://example.org/" ∧
    "http://example.org/" ≠ "http://example.org" := by decide

/-- C4 witness: the rewrite theorem applied to the internal Location
`http://127.0.0.1:3000/done?callback=https://app.example.com/next` for
the public Host header `app.example.com:4443` (spec scenario S3). -/
theorem location_rewrite_targets_witness :
    ctxWF ctx₀ = true ∧
    parseUrl ctx₀ "http://127.0.0.1:3000/done?callback=https://app.example.com/next" =
      some ⟨"http", "127.0.0.1", some "3000", "/done",
        "?callback=https://app.example.com/next", ""⟩ ∧
    (∃ r, rewriteLocation ctx₀
        "http://127.0.0.1:3000/done?callback=https://app.example.com/next" = some r ∧
      (isInternalHost ctx₀ "127.0.0.1" = true →
        r = "https://" ++ ctx₀.publicHostFull ++ "/done" ++
          injectSearch ctx₀ "?callback=https://app.example.com/next" ++ "" ∧
        parseUrlAbs r = some ⟨"https", publicHost ctx₀, pubPortOpt ctx₀,
          "/done", injectSearch ctx₀ "?callback=https://app.example.com/next", ""⟩) ∧
      (isInternalHost ctx₀ "127.0.0.1" = false →
        r = serializeUrl ⟨"http", "127.0.0.1", some "3000", "/done",
          injectSearch ctx₀ "?callback=https://app.example.com/next", ""⟩ ∧
        parseUrlAbs r = some ⟨"http", "127.0.0.1", some "3000", "/done",
          injectSearch ctx₀ "?callback=https://app.example.com/next", ""⟩) ∧
      (queryGet "?callback=https://app.example.com/next" "callback" = none →
        injectSearch ctx₀ "?callback=https://app.example.com/next" =
          "?callback=https://app.example.com/next")) :=
  ⟨by decide, by decide,
    location_rewrite_targets ctx₀
      "http://127.0.0.1:3000/done?callback=https://app.example.com/next"
      ⟨"http", "127.0.0.1", some "3000", "/done",
        "?callback=https://app.example.com/next", ""⟩
      (by decide) (by decide)⟩

/-- C5 counterexample: with public Host header `app.example.com:443`,
rewriting the internal Location `http://127.0.0.1:3000/done` once gives
`https://app.example.com:443/done`; rewriting that output again parses
it, drops the default https port 443, and serializes to
`https://app.example.com/done`, a different header value. -/
theorem location_rewrite_not_idempotent_cex :
    rewriteLocation ctx443 "http://127.0.0.1:3000/done" =
      some "https://app.example.com:443/done" ∧
    rewriteLocation ctx443 "https://app.example.com:443/done" =
      some "https://app.example.com/done" ∧
    "https://app.example.com/done" ≠ "https://app.example.com:443/done" := by decide

/-- C5 witness: the idempotence theorem applied to a relative Location
with a callback parameter: the first pass injects the public port into
the callback and rewrites to the public host; the second pass returns
that header unchanged. -/
theorem location_rewrite_idem_witness :
    ctxWF ctx₀ = true ∧
    rewriteLocation ctx₀ "/start?callback=https://app.example.com/cb" =
      some "https://app.example.com:4443/start?callback=https%3A%2F%2Fapp.example.com%3A4443%2Fcb" ∧
    rewriteLocation ctx₀
      "https://app.example.com:4443/start?callback=https%3A%2F%2Fapp.example.com%3A4443%2Fcb" =
      some "https://app.example.com:4443/start?callback=https%3A%2F%2Fapp.example.com%3A4443%2Fcb" :=
  ⟨by decide, by decide,
    location_rewrite_idem ctx₀ "/start?callback=https://app.example.com/cb"
      "https://app.example.com:4443/start?callback=https%3A%2F%2Fapp.example.com%3A4443%2Fcb"
      (by decide) (by decide)⟩

end Gateway
